import Mathlib

/-!
Verification of the `undercity` RealSense point-cloud streaming server
(`src/services/server.py`, class `RealSenseStreamer`) and its client
(`src/services/client.py`).  The Python code is shallowly embedded:

* numpy image arrays become rectangular `Grid`s (dimensions plus a total
  indexing function);
* Python floats that only flow through arithmetic are modelled as exact
  rationals (`ℚ`);
* Python floats that are serialized by `json.dumps` are modelled by the
  decimal literals `repr` prints for them (`Decimal` below);
* fallible code (`try`/`except` returning `None`) returns `Option`;
* the asyncio broadcast loop and per-connection handler are modelled as
  explicit event traces and a small-step interleaving semantics.
-/

namespace Undercity

/-- Rectangular 2-D array, the model of a numpy image: `h` rows, `w`
columns, and a total lookup function `px row col`.  Lookups are only
meaningful for `row < h`, `col < w`, mirroring numpy bounds. -/
structure Grid (α : Type) where
  h : ℕ
  w : ℕ
  px : ℕ → ℕ → α

/-- Camera intrinsics used by `generate_point_cloud`: focal lengths and
principal point (`self.intrinsics.fx/fy/ppx/ppy` in `server.py`). -/
structure Intr where
  fx : ℚ
  fy : ℚ
  ppx : ℚ
  ppy : ℚ
deriving DecidableEq

/-- Terminating decimal literal, the model of the text `repr` prints for a
Python float inside `json.dumps` output: the value `m / 10 ^ (k + 1)`,
printed with exactly `k + 1` fractional digits (a float literal always has
at least one digit after the point, e.g. `1.0`). -/
structure Decimal where
  m : ℤ
  k : ℕ
deriving DecidableEq

/-- Point-cloud snapshot built by `generate_point_cloud`: the dict
`{'points': ..., 'colors': ..., 'timestamp': ...}`.  Points are exact
rationals, colors are RGB byte triples, and the timestamp (`time.time()`,
merely stored, never computed with) is kept in its serialized form. -/
structure Snapshot where
  points : List (ℚ × ℚ × ℚ)
  colors : List (ℕ × ℕ × ℕ)
  timestamp : Decimal
deriving DecidableEq

/-- Python `range(0, n, 2)`: the even indices below `n`, in order. -/
def sampledCoords (n : ℕ) : List ℕ :=
  (List.range n).filter (fun i => i % 2 = 0)

/-- Row-major enumeration of the pixels visited by the two nested loops
`for y in range(0, height, 2): for x in range(0, width, 2)`. -/
def sampledPixels (h w : ℕ) : List (ℕ × ℕ) :=
  (sampledCoords h).flatMap (fun y => (sampledCoords w).map (fun x => (y, x)))

/-- Channel reversal performed by `cv2.cvtColor(color_image, cv2.COLOR_BGR2RGB)`. -/
def bgr2rgb (c : ℕ × ℕ × ℕ) : ℕ × ℕ × ℕ :=
  (c.2.2, c.2.1, c.1)

/-- Body of the per-pixel arithmetic of `generate_point_cloud`:
`z = depth * depth_scale`, `x_3d = (pixel_x - ppx) * z / fx`,
`y_3d = (pixel_y - ppy) * z / fy`, collected as `[x_3d, y_3d, z]`. -/
def unproject (i : Intr) (scale : ℚ) (y x : ℕ) (d : ℕ) : ℚ × ℚ × ℚ :=
  let z : ℚ := (d : ℚ) * scale
  ((( x : ℚ) - i.ppx) * z / i.fx, ((y : ℚ) - i.ppy) * z / i.fy, z)

/-- Sampling loop of `generate_point_cloud` over a list of pixel
coordinates, accumulating the `points` and `colors` lists.  `none` models
an exception reaching the surrounding `except` clause: `AttributeError`
when `self.intrinsics` is `None`, `ZeroDivisionError` when a focal length
is zero, and `IndexError` when the (RGB-converted) color image is indexed
outside its bounds.  A pixel with zero depth is skipped entirely, so none
of those errors can fire on it. -/
def buildLoop (depth : Grid ℕ) (scale : ℚ) (colorRGB : Grid (ℕ × ℕ × ℕ))
    (intr : Option Intr) :
    List (ℕ × ℕ) → Option (List (ℚ × ℚ × ℚ) × List (ℕ × ℕ × ℕ))
  | [] => some ([], [])
  | (y, x) :: rest =>
    let d := depth.px y x
    if d = 0 then
      buildLoop depth scale colorRGB intr rest
    else
      match intr with
      | none => none
      | some i =>
        if i.fx = 0 ∨ i.fy = 0 then none
        else if y < colorRGB.h ∧ x < colorRGB.w then
          (buildLoop depth scale colorRGB intr rest).map
            (fun acc => (unproject i scale y x d :: acc.1,
                         colorRGB.px y x :: acc.2))
        else none

/-- Translation of `RealSenseStreamer.generate_point_cloud`.  Inputs: the
depth image and its scale (`depth_frame.get_data()`, `get_units()`), the
BGR color image (`color_frame.get_data()`), the possibly-absent
`self.intrinsics`, and the wall-clock `time.time()` value stored as the
timestamp.  Returns `none` exactly when the Python code would catch an
exception and `return None`. -/
def generate_point_cloud (depth : Grid ℕ) (scale : ℚ) (colorBGR : Grid (ℕ × ℕ × ℕ))
    (intr : Option Intr) (ts : Decimal) : Option Snapshot :=
  let colorRGB : Grid (ℕ × ℕ × ℕ) :=
    { h := colorBGR.h, w := colorBGR.w, px := fun y x => bgr2rgb (colorBGR.px y x) }
  (buildLoop depth scale colorRGB intr (sampledPixels depth.h depth.w)).map
    (fun acc => { points := acc.1, colors := acc.2, timestamp := ts })

/-! Encoder (`compress_point_cloud` in `server.py`, decoding in
`receive_messages` of `client.py`).  `json.dumps` with default separators
prints the snapshot dict as
`{"points": [[x, y, z], ...], "colors": [[r, g, b], ...], "timestamp": t}`;
the result is gzipped.  The byte compressor is modelled as an executable
lossless run-length codec over bytes (the property of gzip the code relies
on is exactly losslessness); the JSON layer is modelled character by
character. -/

/-- Decimal digit to its character, as printed by `repr`/`json.dumps`. -/
def digitChar : ℕ → Char
  | 0 => '0'
  | 1 => '1'
  | 2 => '2'
  | 3 => '3'
  | 4 => '4'
  | 5 => '5'
  | 6 => '6'
  | 7 => '7'
  | 8 => '8'
  | 9 => '9'
  | _ => '?'

/-- Test for an ASCII digit character. -/
def isDig (c : Char) : Bool :=
  48 ≤ c.toNat && c.toNat ≤ 57

/-- Numeric value of an ASCII digit character. -/
def charVal (c : Char) : ℕ :=
  c.toNat - 48

/-- Base-10 digits of a natural number, most significant first. -/
def natDigitsBE (n : ℕ) : List ℕ :=
  if _h : n < 10 then [n]
  else natDigitsBE (n / 10) ++ [n % 10]
termination_by n
decreasing_by exact Nat.div_lt_self (by omega) (by omega)

/-- Value of a big-endian digit list. -/
def digitsVal (ds : List ℕ) : ℕ :=
  ds.foldl (fun a d => 10 * a + d) 0

/-- Value of a big-endian list of digit characters. -/
def charsVal (cs : List Char) : ℕ :=
  cs.foldl (fun a c => 10 * a + charVal c) 0

/-- Decimal rendering of a natural number. -/
def printNat (n : ℕ) : List Char :=
  (natDigitsBE n).map digitChar

/-- Parse a nonempty run of digits; the model of reading a JSON integer
literal body. -/
def parseNat (cs : List Char) : Option (ℕ × List Char) :=
  let ds := cs.takeWhile isDig
  if ds.isEmpty then none else some (charsVal ds, cs.dropWhile isDig)

/-- Rendering of a (possibly negative) integer, as `json.dumps` prints a
Python int. -/
def printInt (m : ℤ) : List Char :=
  (if m < 0 then ['-'] else []) ++ printNat m.natAbs

/-- Parse an optionally signed integer literal. -/
def parseInt (cs : List Char) : Option (ℤ × List Char) :=
  if cs.head? = some '-' then
    (parseNat cs.tail).map (fun pr => (-(pr.1 : ℤ), pr.2))
  else
    (parseNat cs).map (fun pr => ((pr.1 : ℤ), pr.2))

/-- Rendering of a `Decimal`: sign, integer digits (padded with a single
leading `0` when the value is below one), a point, and exactly `k + 1`
fractional digits — the shape `repr` gives every finite Python float that
does not need an exponent. -/
def printDecimal (d : Decimal) : List Char :=
  let ds := natDigitsBE d.m.natAbs
  let fd := d.k + 1
  let padded := List.replicate (fd + 1 - ds.length) 0 ++ ds
  (if d.m < 0 then ['-'] else []) ++
    (padded.take (padded.length - fd)).map digitChar ++
    '.' :: (padded.drop (padded.length - fd)).map digitChar

/-- Parse an unsigned decimal literal `digits.digits`. -/
def parseDecAux (cs : List Char) : Option (Decimal × List Char) :=
  let ds1 := cs.takeWhile isDig
  if ds1.isEmpty then none else
  match cs.dropWhile isDig with
  | '.' :: cs2 =>
    let ds2 := cs2.takeWhile isDig
    if ds2.isEmpty then none
    else some ({ m := (charsVal (ds1 ++ ds2) : ℤ), k := ds2.length - 1 },
               cs2.dropWhile isDig)
  | _ => none

/-- Parse an optionally signed decimal literal. -/
def parseDecimal (cs : List Char) : Option (Decimal × List Char) :=
  if cs.head? = some '-' then
    (parseDecAux cs.tail).map (fun pr => ({ m := -pr.1.m, k := pr.1.k }, pr.2))
  else
    parseDecAux cs

/-- Consume an expected literal prefix. -/
def parseLit : List Char → List Char → Option (List Char)
  | [], cs => some cs
  | e :: es, c :: cs => if c = e then parseLit es cs else none
  | _ :: _, [] => none

/-- Rendering of a 3-element JSON array `[a, b, c]` (a point or a color). -/
def printTriple (pr : α → List Char) (t : α × α × α) : List Char :=
  '[' :: (pr t.1 ++ ',' :: ' ' :: pr t.2.1 ++ ',' :: ' ' :: pr t.2.2 ++ [']'])

/-- Parse a 3-element JSON array with `, ` separators. -/
def parseTriple (pe : List Char → Option (α × List Char)) (cs : List Char) :
    Option ((α × α × α) × List Char) :=
  match cs with
  | '[' :: cs1 =>
    match pe cs1 with
    | some (a, ',' :: ' ' :: cs2) =>
      match pe cs2 with
      | some (b, ',' :: ' ' :: cs3) =>
        match pe cs3 with
        | some (c, ']' :: cs4) => some ((a, b, c), cs4)
        | _ => none
      | _ => none
    | _ => none
  | _ => none

/-- Elements joined by `, `, the default `json.dumps` item separator. -/
def printJoin (pr : α → List Char) : List α → List Char
  | [] => []
  | [a] => pr a
  | a :: rest => pr a ++ ',' :: ' ' :: printJoin pr rest

/-- Rendering of a JSON array. -/
def printListOf (pr : α → List Char) (l : List α) : List Char :=
  '[' :: (printJoin pr l ++ [']'])

/-- Fuelled loop reading `elem (, elem)*`; fuel bounds the element count. -/
def parseListAux (pe : List Char → Option (α × List Char)) :
    ℕ → List Char → Option (List α × List Char)
  | 0, _ => none
  | fuel + 1, cs =>
    match pe cs with
    | some (v, ',' :: ' ' :: cs2) =>
      (parseListAux pe fuel cs2).map (fun pr => (v :: pr.1, pr.2))
    | some (v, rest) => some ([v], rest)
    | none => none

/-- Parse a JSON array of `pe`-elements. -/
def parseListOf (pe : List Char → Option (α × List Char)) (cs : List Char) :
    Option (List α × List Char) :=
  match cs with
  | '[' :: ']' :: rest => some ([], rest)
  | '[' :: cs1 =>
    match parseListAux pe cs1.length cs1 with
    | some (vs, ']' :: rest) => some (vs, rest)
    | _ => none
  | _ => none

/-- Either the list is empty or its head fails the test; the shape of the
input left over after a maximal `takeWhile` run. -/
def headFail {α : Type} (p : α → Bool) (l : List α) : Prop :=
  match l with
  | [] => True
  | c :: _ => p c = false

/-- Snapshot as it appears on the wire: every number in its serialized
form — points and timestamp as float literals, colors as integers. -/
structure WireSnapshot where
  points : List (Decimal × Decimal × Decimal)
  colors : List (ℤ × ℤ × ℤ)
  timestamp : Decimal
deriving DecidableEq

/-- Literal `{"points": ` opening the serialized dict. -/
def litOpen : List Char :=
  ['\x7b', '"', 'p', 'o', 'i', 'n', 't', 's', '"', ':', ' ']

/-- Literal `, "colors": `. -/
def litColors : List Char :=
  [',', ' ', '"', 'c', 'o', 'l', 'o', 'r', 's', '"', ':', ' ']

/-- Literal `, "timestamp": `. -/
def litTs : List Char :=
  [',', ' ', '"', 't', 'i', 'm', 'e', 's', 't', 'a', 'm', 'p', '"', ':', ' ']

/-- Closing brace of the serialized dict. -/
def litClose : List Char := ['\x7d']

/-- Serialization of a snapshot: the exact text `json.dumps` produces for
`{'points': ..., 'colors': ..., 'timestamp': ...}` with default
separators and insertion-ordered keys. -/
def printWire (w : WireSnapshot) : List Char :=
  litOpen ++ printListOf (printTriple printDecimal) w.points ++
  litColors ++ printListOf (printTriple printInt) w.colors ++
  litTs ++ printDecimal w.timestamp ++ litClose

/-- Deserialization: `json.loads` on the snapshot payload followed by the
client's field reads (`data['points']`, `data['colors']`,
`data['timestamp']`), demanding the whole message be consumed. -/
def parseWire (cs : List Char) : Option WireSnapshot :=
  match parseLit litOpen cs with
  | none => none
  | some cs1 =>
    match parseListOf (parseTriple parseDecimal) cs1 with
    | none => none
    | some (pts, cs2) =>
      match parseLit litColors cs2 with
      | none => none
      | some cs3 =>
        match parseListOf (parseTriple parseInt) cs3 with
        | none => none
        | some (cols, cs4) =>
          match parseLit litTs cs4 with
          | none => none
          | some cs5 =>
            match parseDecimal cs5 with
            | none => none
            | some (t, cs6) =>
              match parseLit litClose cs6 with
              | some [] => some { points := pts, colors := cols, timestamp := t }
              | _ => none

/-- Length (capped at 254) of the run of copies of `b` heading the list. -/
def rleCount (b : ℕ) : ℕ → List ℕ → ℕ
  | 0, _ => 0
  | _ + 1, [] => 0
  | cap + 1, c :: cs => if c = b then rleCount b cap cs + 1 else 0

/-- Byte-stream compressor standing in for `gzip.compress`: a run-length
code emitting `(count, byte)` pairs with runs capped at 255 so that each
count fits a byte.  What the server and client rely on is that the
compressor is lossless; that law is proved below. -/
def rleCompress : List ℕ → List ℕ
  | [] => []
  | b :: rest =>
    let n := rleCount b 254 rest
    (n + 1) :: b :: rleCompress (rest.drop n)
termination_by l => l.length
decreasing_by simp [List.length_drop]; omega

/-- Inverse of `rleCompress`, standing in for `gzip.decompress`. -/
def rleDecompress : List ℕ → List ℕ
  | [] => []
  | [_] => []
  | n :: b :: rest => List.replicate n b ++ rleDecompress rest

/-- UTF-8 bytes of the (pure ASCII) serialized snapshot. -/
def strBytes (cs : List Char) : List ℕ :=
  cs.map Char.toNat

/-- Bytes decoded back to characters (`decompressed_data.decode('utf-8')`). -/
def bytesChars (bs : List ℕ) : List Char :=
  bs.map Char.ofNat

/-- Server-side `encode`: serialize then compress
(`compress_point_cloud` on an already wire-formed snapshot). -/
def encodeSnapshot (w : WireSnapshot) : List ℕ :=
  rleCompress (strBytes (printWire w))

/-- Client-side `decode`: decompress, decode UTF-8, parse JSON
(`receive_messages` lines 51-52 of `client.py`). -/
def decodeSnapshot (bs : List ℕ) : Option WireSnapshot :=
  parseWire (bytesChars (rleDecompress bs))

/-- Exact conversion of a rational to a terminating decimal, when one
exists: the model of `repr` printing a float value.  Searches for the
least number of fractional digits clearing the denominator. -/
def ratToDec (q : ℚ) : Option Decimal :=
  (List.range (q.den + 1)).findSome? (fun k =>
    let m := q * (10 : ℚ) ^ (k + 1)
    if m.den = 1 then some { m := m.num, k := k } else none)

/-- Snapshot rendered into wire form: every point coordinate printed as a
decimal, colors as integers, timestamp kept. -/
def snapToWire (s : Snapshot) : Option WireSnapshot := do
  let pts ← s.points.mapM (fun t => do
    let a ← ratToDec t.1
    let b ← ratToDec t.2.1
    let c ← ratToDec t.2.2
    pure (a, b, c))
  pure { points := pts,
         colors := s.colors.map (fun t => ((t.1 : ℤ), (t.2.1 : ℤ), (t.2.2 : ℤ))),
         timestamp := s.timestamp }

/-- Translation of `RealSenseStreamer.compress_point_cloud`: JSON-serialize
the snapshot dict and compress it; `none` models the `except` clause. -/
def compress_point_cloud (s : Snapshot) : Option (List ℕ) :=
  (snapToWire s).map encodeSnapshot

/-! Broadcast loop (`stream_to_clients`).  The send phase of one tick is
modelled as an event trace: the `with self.lock:` block becomes an
acquire/release pair, each loop iteration `await client.send(...)` a send
event (failed when the client's send raises), and the final
`self.clients -= disconnected_clients` a sequence of remove events.
Clients are identified by naturals; `fails c = true` means `client.send`
raises (`ConnectionClosed` or any other exception) for `c` this round. -/

/-- Round event: lock acquire, a send attempt (`ok = false` when the send
raised), a membership removal, lock release. -/
inductive BEv where
  | acq : BEv
  | send (c : ℕ) (ok : Bool) : BEv
  | remove (c : ℕ) : BEv
  | rel : BEv
deriving DecidableEq

/-- Loop `for client in self.clients:` of `stream_to_clients`: one send
attempt per member in order, accumulating the `disconnected_clients` set. -/
def sendLoop (fails : ℕ → Bool) : List ℕ → List BEv × List ℕ
  | [] => ([], [])
  | c :: rest =>
    let acc := sendLoop fails rest
    (BEv.send c (!fails c) :: acc.1, if fails c then c :: acc.2 else acc.2)

/-- One full fan-out round of `stream_to_clients` lines 150-164: acquire
the registry lock, send to every member sequentially, subtract the failed
members, release.  Returns the event trace and the updated registry. -/
def stream_round (clients : List ℕ) (fails : ℕ → Bool) : List BEv × List ℕ :=
  let acc := sendLoop fails clients
  (BEv.acq :: (acc.1 ++ acc.2.map BEv.remove ++ [BEv.rel]),
   clients.filter (fun c => decide (c ∉ acc.2)))

/-- Events strictly between the first lock acquire and the next release. -/
def critSection (tr : List BEv) : List BEv :=
  ((tr.dropWhile (fun e => decide (e ≠ BEv.acq))).drop 1).takeWhile
    (fun e => decide (e ≠ BEv.rel))

/-- Recognizer for send events. -/
def isSendEv : BEv → Bool
  | BEv.send _ _ => true
  | _ => false

/-- Property claimed by the spec for a round trace: no send happens while
the registry lock is held. -/
def sendsOutsideCrit (tr : List BEv) : Prop :=
  ∀ e ∈ critSection tr, isSendEv e = false

/-- Completion times of the sequential sends: each `await client.send`
finishes (after `dur c` time units) before the next begins, as the loop
awaits them one by one with no `asyncio.wait_for` bound. -/
def sendTimesFrom (dur : ℕ → ℚ) : List ℕ → ℚ → List (ℕ × ℚ)
  | [], _ => []
  | c :: rest, t => (c, t + dur c) :: sendTimesFrom dur rest (t + dur c)

/-- Per-client payload arrival times for one round, counted from the start
of the round's send loop. -/
def roundRecvTimes (clients : List ℕ) (dur : ℕ → ℚ) : List (ℕ × ℚ) :=
  sendTimesFrom dur clients 0

/-- Wall-clock length of the round's send phase. -/
def roundLatency (clients : List ℕ) (dur : ℕ → ℚ) : ℚ :=
  (clients.map dur).sum

/-- Tick period of the broadcaster (`await asyncio.sleep(0.033)`). -/
def tickPeriod : ℚ := 33 / 1000

/-- Deliveries of one round: the payload reaches exactly the members whose
send attempt succeeded. -/
def roundDeliveries (payload : List ℕ) (clients : List ℕ) (fails : ℕ → Bool) :
    List (ℕ × List ℕ) :=
  (stream_round clients fails).1.filterMap (fun e =>
    match e with
    | BEv.send c true => some (c, payload)
    | _ => none)

/-- One tick of `stream_to_clients`: build, compress, and fan out.  When
the builder or the compressor returns `None` the tick is skipped (the
`if point_cloud_data:` / `if compressed_data:` guards; the returned dict
is a nonempty dict, hence truthy, whenever it exists): nothing is sent
and the registry is untouched. -/
def stream_tick (depth : Grid ℕ) (scale : ℚ) (colorBGR : Grid (ℕ × ℕ × ℕ))
    (intr : Option Intr) (ts : Decimal) (clients : List ℕ) (fails : ℕ → Bool) :
    List (ℕ × List ℕ) × List ℕ :=
  match generate_point_cloud depth scale colorBGR intr ts with
  | none => ([], clients)
  | some pc =>
    match compress_point_cloud pc with
    | none => ([], clients)
    | some payload =>
      (roundDeliveries payload clients fails, (stream_round clients fails).2)

/-! Connection handshake (`handle_client` lines 174-187) interleaved with
the broadcast task.  A small-step scheduler: `reg c` is the registration
`self.clients.add(websocket)` done under the lock, `hello c` the
`await websocket.send(json.dumps(welcome_msg))`, and `tick` one broadcast
round delivering the binary payload to every currently registered client.
Between `reg c` and `hello c` the connection handler holds no lock, so the
event loop may run a broadcast tick there. -/

/-- Message as seen by one client: the JSON welcome (carrying the assigned
client id) or a binary point-cloud payload. -/
inductive CMsg where
  | welcome (cid : ℕ) : CMsg
  | blob : CMsg
deriving DecidableEq

/-- Scheduler action: a connection registering, a connection sending its
welcome, or the broadcaster running one tick. -/
inductive CAct where
  | reg (c : ℕ) : CAct
  | hello (c : ℕ) : CAct
  | tick : CAct
deriving DecidableEq

/-- Network state: the registry and each client's received-message log. -/
structure NetSt where
  registry : List ℕ
  inbox : ℕ → List CMsg

/-- Small-step semantics of the three actions. -/
def cstep (s : NetSt) : CAct → NetSt
  | CAct.reg c => { registry := s.registry ++ [c], inbox := s.inbox }
  | CAct.hello c =>
    { registry := s.registry,
      inbox := fun d => if d = c then s.inbox d ++ [CMsg.welcome c] else s.inbox d }
  | CAct.tick =>
    { registry := s.registry,
      inbox := fun d => if d ∈ s.registry then s.inbox d ++ [CMsg.blob] else s.inbox d }

/-- Run of a schedule from a given state. -/
def runFrom (s : NetSt) (acts : List CAct) : NetSt :=
  acts.foldl cstep s

/-- Run of a schedule from the empty server state. -/
def crun (acts : List CAct) : NetSt :=
  runFrom { registry := [], inbox := fun _ => [] } acts

/-! Control-message handling (`handle_client` lines 190-198).  Incoming
text frames go through `json.loads`; a dict whose `'type'` is `'ping'`
earns a `'pong'` reply; `json.JSONDecodeError` and every other exception
(`AttributeError` from `.get` on a non-dict, in particular) are caught and
printed.  The handler never closes the connection and never re-raises. -/

/-- Python value decoded from JSON, as far as the handler can observe it. -/
inductive PyVal where
  | pstr (s : List Char) : PyVal
  | pint (n : ℤ) : PyVal
  | pdec (d : Decimal) : PyVal
  | pbool (b : Bool) : PyVal
  | pnull : PyVal
  | parr (elts : List PyVal) : PyVal
  | pobj (kvs : List (List Char × PyVal)) : PyVal

/-- JSON whitespace. -/
def isWs (c : Char) : Bool :=
  c = ' ' || c = '\t' || c = '\n' || c = '\r'

/-- Drop leading JSON whitespace. -/
def skipWs (cs : List Char) : List Char :=
  cs.dropWhile isWs

/-- Parse a string body up to the closing quote (escape sequences are not
modelled; no message this development evaluates contains one). -/
def parseStr (cs : List Char) : Option (List Char × List Char) :=
  let s := cs.takeWhile (fun c => decide (c ≠ '"'))
  match cs.dropWhile (fun c => decide (c ≠ '"')) with
  | '"' :: r => some (s, r)
  | _ => none

/-- Parse an unsigned JSON number into an int or a decimal. -/
def parseNumAux (cs : List Char) : Option (PyVal × List Char) :=
  let ds1 := cs.takeWhile isDig
  if ds1.isEmpty then none else
  match cs.dropWhile isDig with
  | '.' :: cs2 =>
    let ds2 := cs2.takeWhile isDig
    if ds2.isEmpty then none
    else some (PyVal.pdec { m := (charsVal (ds1 ++ ds2) : ℤ), k := ds2.length - 1 },
               cs2.dropWhile isDig)
  | rest => some (PyVal.pint (charsVal ds1 : ℤ), rest)

/-- Parse an optionally signed JSON number (exponent forms are not
modelled). -/
def parseNum (cs : List Char) : Option (PyVal × List Char) :=
  if cs.head? = some '-' then
    (parseNumAux cs.tail).map (fun pr =>
      (match pr.1 with
       | PyVal.pint n => PyVal.pint (-n)
       | PyVal.pdec d => PyVal.pdec { m := -d.m, k := d.k }
       | v => v, pr.2))
  else parseNumAux cs

mutual

/-- Fuelled JSON value parser, the model of `json.loads`. -/
def parseVal : ℕ → List Char → Option (PyVal × List Char)
  | 0, _ => none
  | fuel + 1, cs =>
    match skipWs cs with
    | '\x7b' :: cs1 =>
      match skipWs cs1 with
      | '\x7d' :: cs2 => some (PyVal.pobj [], cs2)
      | _ => (parseMembers fuel cs1).map (fun pr => (PyVal.pobj pr.1, pr.2))
    | '[' :: cs1 =>
      match skipWs cs1 with
      | ']' :: cs2 => some (PyVal.parr [], cs2)
      | _ => (parseElems fuel cs1).map (fun pr => (PyVal.parr pr.1, pr.2))
    | '"' :: cs1 => (parseStr cs1).map (fun pr => (PyVal.pstr pr.1, pr.2))
    | 't' :: 'r' :: 'u' :: 'e' :: r => some (PyVal.pbool true, r)
    | 'f' :: 'a' :: 'l' :: 's' :: 'e' :: r => some (PyVal.pbool false, r)
    | 'n' :: 'u' :: 'l' :: 'l' :: r => some (PyVal.pnull, r)
    | rest => parseNum rest

/-- Fuelled parser for object members `"key": value (, ...)* }`. -/
def parseMembers : ℕ → List Char → Option (List (List Char × PyVal) × List Char)
  | 0, _ => none
  | fuel + 1, cs =>
    match skipWs cs with
    | '"' :: cs1 =>
      match parseStr cs1 with
      | some (key, cs2) =>
        match skipWs cs2 with
        | ':' :: cs3 =>
          match parseVal fuel cs3 with
          | some (v, cs4) =>
            match skipWs cs4 with
            | ',' :: cs5 =>
              (parseMembers fuel cs5).map (fun pr => ((key, v) :: pr.1, pr.2))
            | '\x7d' :: cs5 => some ([(key, v)], cs5)
            | _ => none
          | none => none
        | _ => none
      | none => none
    | _ => none

/-- Fuelled parser for array elements `value (, value)* ]`. -/
def parseElems : ℕ → List Char → Option (List PyVal × List Char)
  | 0, _ => none
  | fuel + 1, cs =>
    match parseVal fuel cs with
    | some (v, cs1) =>
      match skipWs cs1 with
      | ',' :: cs2 => (parseElems fuel cs2).map (fun pr => (v :: pr.1, pr.2))
      | ']' :: cs2 => some ([v], cs2)
      | _ => none
    | none => none

end

/-- Whole-input JSON parse, `json.loads`: trailing whitespace allowed,
anything else trailing is a decode error. -/
def jsonParse (cs : List Char) : Option PyVal :=
  match parseVal (cs.length + 1) cs with
  | some (v, rest) => if (skipWs rest).isEmpty then some v else none
  | none => none

/-- Key `'type'` of the control protocol. -/
def typeKey : List Char := ['t', 'y', 'p', 'e']

/-- Tag `'ping'` of a liveness request. -/
def pingTag : List Char := ['p', 'i', 'n', 'g']

/-- Reply `json.dumps({'type': 'pong'})` sent for a liveness request. -/
def pongChars : List Char :=
  ['\x7b', '"', 't', 'y', 'p', 'e', '"', ':', ' ', '"', 'p', 'o', 'n', 'g', '"', '\x7d']

/-- Python `dict.get`: later duplicate keys overwrite earlier ones. -/
def dictGet (k : List Char) (kvs : List (List Char × PyVal)) : Option PyVal :=
  (kvs.reverse.find? (fun kv => decide (kv.1 = k))).map (fun kv => kv.2)

/-- Observable outcome of handling one incoming control message. -/
structure HandlerOut where
  replies : List (List Char)
  logged : Bool
  closed : Bool
deriving DecidableEq

/-- Translation of the message loop body of `handle_client` (lines
190-198): decode errors and non-dict payloads are printed and swallowed, a
dict tagged `'ping'` gets the one `'pong'` reply, anything else is
silently ignored; no branch closes the connection or raises. -/
def handle_client_message (msg : List Char) : HandlerOut :=
  match jsonParse msg with
  | none => { replies := [], logged := true, closed := false }
  | some (PyVal.pobj kvs) =>
    match dictGet typeKey kvs with
    | some (PyVal.pstr s) =>
      if s = pingTag then { replies := [pongChars], logged := false, closed := false }
      else { replies := [], logged := false, closed := false }
    | _ => { replies := [], logged := false, closed := false }
  | some _ => { replies := [], logged := true, closed := false }

/-! Concrete inputs used by the scenario parts of the claims, their
counterexamples, and the witnesses. -/

/-- Depth grid of the spec's worked example: 241 x 321, raw depth 1000 at
pixel (y = 240, x = 320) and no return anywhere else. -/
def exDepth : Grid ℕ :=
  { h := 241, w := 321, px := fun y x => if y = 240 ∧ x = 320 then 1000 else 0 }

/-- Matching BGR color grid, constant pixel (10, 20, 30). -/
def exColor : Grid (ℕ × ℕ × ℕ) :=
  { h := 241, w := 321, px := fun _ _ => (10, 20, 30) }

/-- Calibration of the spec's worked example. -/
def exIntr : Intr :=
  { fx := 600, fy := 600, ppx := 320, ppy := 240 }

/-- Fixed capture timestamp used by the concrete examples. -/
def exTs : Decimal := { m := 17354000123, k := 2 }

/-- One-pixel depth grid (raw depth 7) for the witnesses. -/
def w1depth : Grid ℕ := { h := 1, w := 1, px := fun _ _ => 7 }

/-- One-pixel BGR color grid for the witnesses. -/
def w1color : Grid (ℕ × ℕ × ℕ) := { h := 1, w := 1, px := fun _ _ => (1, 2, 3) }

/-- Unit calibration for the witnesses. -/
def w1intr : Intr := { fx := 1, fy := 1, ppx := 0, ppy := 0 }

/-- All-zero 2 x 2 depth grid (no sensor return anywhere). -/
def zDepth : Grid ℕ := { h := 2, w := 2, px := fun _ _ => 0 }

/-- Depth grid whose dimensions mismatch `mmColor`: 2 x 2, all raw depth 5. -/
def mmDepth : Grid ℕ := { h := 2, w := 2, px := fun _ _ => 5 }

/-- Color grid whose dimensions mismatch `mmDepth`: 4 x 4. -/
def mmColor : Grid (ℕ × ℕ × ℕ) := { h := 4, w := 4, px := fun _ _ => (9, 9, 9) }

/-- Send durations with one slow client: client 1 takes a full second,
every other client is instantaneous. -/
def exDur : ℕ → ℚ := fun c => if c = 1 then 1 else 0

/-- Characters of the valid but unrecognized control message
`{"type": "hello"}`. -/
def helloMsg : List Char :=
  ['\x7b', '"', 't', 'y', 'p', 'e', '"', ':', ' ', '"', 'h', 'e', 'l', 'l', 'o', '"', '\x7d']

/-- Tag `'hello'`. -/
def helloTag : List Char := ['h', 'e', 'l', 'l', 'o']

/-- Characters of the liveness request `{"type": "ping"}`, exactly as
`json.dumps({'type': 'ping'})` prints it. -/
def pingMsg : List Char :=
  ['\x7b', '"', 't', 'y', 'p', 'e', '"', ':', ' ', '"', 'p', 'i', 'n', 'g', '"', '\x7d']

/-- Clean characterization of the sampling loop: on success, the points are
the unprojections of the nonzero-depth pixels, in visiting order, and the
colors are the matching RGB pixels. -/
theorem buildLoop_eq (depth : Grid ℕ) (scale : ℚ) (colorRGB : Grid (ℕ × ℕ × ℕ))
    (i : Intr) (pixels : List (ℕ × ℕ)) (ps : List (ℚ × ℚ × ℚ))
    (cs : List (ℕ × ℕ × ℕ))
    (h : buildLoop depth scale colorRGB (some i) pixels = some (ps, cs)) :
    ps = (pixels.filter (fun p => depth.px p.1 p.2 ≠ 0)).map
           (fun p => unproject i scale p.1 p.2 (depth.px p.1 p.2)) ∧
    cs = (pixels.filter (fun p => depth.px p.1 p.2 ≠ 0)).map
           (fun p => colorRGB.px p.1 p.2) := by
  induction pixels generalizing ps cs with
  | nil =>
    simp [buildLoop] at h
    simp [h.1, h.2]
  | cons hd tl ih =>
    obtain ⟨y, x⟩ := hd
    by_cases hd0 : depth.px y x = 0
    · rw [buildLoop] at h
      simp only [hd0, if_pos rfl] at h
      have := ih ps cs (by simpa using h)
      simp [List.filter_cons, hd0, this.1, this.2]
    · rw [buildLoop] at h
      simp only [if_neg hd0] at h
      by_cases hfxy : i.fx = 0 ∨ i.fy = 0
      · simp [hfxy] at h
      · simp only [if_neg hfxy] at h
        by_cases hbnd : y < colorRGB.h ∧ x < colorRGB.w
        · simp only [if_pos hbnd, Option.map_eq_some'] at h
          obtain ⟨⟨ps', cs'⟩, hrec, heq⟩ := h
          obtain ⟨hps, hcs⟩ := ih ps' cs' hrec
          cases heq
          simp [List.filter_cons, hd0, hps, hcs]
        · simp [if_neg hbnd] at h

/-- Success of the loop when every visited pixel has zero depth. -/
theorem buildLoop_all_zero (depth : Grid ℕ) (scale : ℚ)
    (colorRGB : Grid (ℕ × ℕ × ℕ)) (intr : Option Intr)
    (pixels : List (ℕ × ℕ))
    (h : ∀ p ∈ pixels, depth.px p.1 p.2 = 0) :
    buildLoop depth scale colorRGB intr pixels = some ([], []) := by
  induction pixels with
  | nil => rfl
  | cons hd tl ih =>
    obtain ⟨y, x⟩ := hd
    have h0 : depth.px y x = 0 := h (y, x) (List.mem_cons_self _ _)
    simp only [buildLoop, h0, if_pos rfl]
    exact ih (fun p hp => h p (List.mem_cons_of_mem _ hp))

/-- Success of the loop: with calibration present, nonzero focal lengths,
and every nonzero-depth pixel inside the color grid, no exception fires
and the loop returns the filtered map. -/
theorem buildLoop_some (depth : Grid ℕ) (scale : ℚ) (colorRGB : Grid (ℕ × ℕ × ℕ))
    (i : Intr) (pixels : List (ℕ × ℕ)) (hfx : i.fx ≠ 0) (hfy : i.fy ≠ 0)
    (hb : ∀ p ∈ pixels, depth.px p.1 p.2 ≠ 0 → p.1 < colorRGB.h ∧ p.2 < colorRGB.w) :
    buildLoop depth scale colorRGB (some i) pixels =
      some ((pixels.filter (fun p => depth.px p.1 p.2 ≠ 0)).map
              (fun p => unproject i scale p.1 p.2 (depth.px p.1 p.2)),
            (pixels.filter (fun p => depth.px p.1 p.2 ≠ 0)).map
              (fun p => colorRGB.px p.1 p.2)) := by
  induction pixels with
  | nil => rfl
  | cons hd tl ih =>
    obtain ⟨y, x⟩ := hd
    have ihtl := ih (fun p hp => hb p (List.mem_cons_of_mem _ hp))
    by_cases hd0 : depth.px y x = 0
    · simp only [buildLoop, hd0, if_pos rfl, ihtl, List.filter_cons]
      simp [hd0]
    · have hbnd := hb (y, x) (List.mem_cons_self _ _) hd0
      simp only [buildLoop, if_neg hd0]
      rw [if_neg (by tauto), if_pos hbnd, ihtl]
      simp only [Option.map_some', List.filter_cons]
      simp [hd0]

/-- With calibration absent, the loop survives only when every visited
pixel has zero depth, and then returns nothing. -/
theorem buildLoop_none_calib (depth : Grid ℕ) (scale : ℚ)
    (colorRGB : Grid (ℕ × ℕ × ℕ)) (pixels : List (ℕ × ℕ))
    (acc : List (ℚ × ℚ × ℚ) × List (ℕ × ℕ × ℕ))
    (h : buildLoop depth scale colorRGB none pixels = some acc) :
    acc = ([], []) ∧ ∀ p ∈ pixels, depth.px p.1 p.2 = 0 := by
  induction pixels with
  | nil =>
    simp [buildLoop] at h
    simp [← h]
  | cons hd tl ih =>
    obtain ⟨y, x⟩ := hd
    by_cases hd0 : depth.px y x = 0
    · rw [buildLoop] at h
      simp only [hd0, if_pos rfl] at h
      obtain ⟨hacc, hall⟩ := ih h
      refine ⟨hacc, ?_⟩
      intro p hp
      rcases List.mem_cons.1 hp with rfl | hp'
      · exact hd0
      · exact hall p hp'
    · rw [buildLoop] at h
      simp [if_neg hd0] at h

/-- Necessary conditions for the loop to survive: every visited pixel with
nonzero depth needs the calibration present with nonzero focal lengths and
its coordinates inside the color grid. -/
theorem buildLoop_requires (depth : Grid ℕ) (scale : ℚ)
    (colorRGB : Grid (ℕ × ℕ × ℕ)) (intr : Option Intr)
    (pixels : List (ℕ × ℕ)) (acc : List (ℚ × ℚ × ℚ) × List (ℕ × ℕ × ℕ))
    (h : buildLoop depth scale colorRGB intr pixels = some acc) :
    ∀ p ∈ pixels, depth.px p.1 p.2 ≠ 0 →
      (∃ i, intr = some i ∧ i.fx ≠ 0 ∧ i.fy ≠ 0) ∧
      p.1 < colorRGB.h ∧ p.2 < colorRGB.w := by
  rcases intr with _ | i
  · intro p hp hpd
    obtain ⟨-, hall⟩ := buildLoop_none_calib depth scale colorRGB pixels acc h
    exact absurd (hall p hp) hpd
  · induction pixels generalizing acc with
    | nil => intro p hp; exact absurd hp (List.not_mem_nil p)
    | cons hd tl ih =>
      obtain ⟨y, x⟩ := hd
      intro p hp hpd
      by_cases hd0 : depth.px y x = 0
      · rw [buildLoop] at h
        simp only [hd0, if_pos rfl] at h
        rcases List.mem_cons.1 hp with rfl | hp'
        · exact absurd hd0 hpd
        · exact ih acc h p hp' hpd
      · rw [buildLoop] at h
        simp only [if_neg hd0] at h
        by_cases hfxy : i.fx = 0 ∨ i.fy = 0
        · simp [hfxy] at h
        · simp only [if_neg hfxy] at h
          by_cases hbnd : y < colorRGB.h ∧ x < colorRGB.w
          · simp only [if_pos hbnd, Option.map_eq_some'] at h
            obtain ⟨acc', hrec, _⟩ := h
            rcases List.mem_cons.1 hp with rfl | hp'
            · exact ⟨⟨i, rfl, fun h0 => hfxy (Or.inl h0), fun h0 => hfxy (Or.inr h0)⟩, hbnd⟩
            · exact ih acc' hrec p hp' hpd
          · simp [if_neg hbnd] at h

/-- Membership in Python `range(0, n, 2)`. -/
theorem mem_sampledCoords {n y : ℕ} : y ∈ sampledCoords n ↔ y < n ∧ y % 2 = 0 := by
  simp [sampledCoords, List.mem_filter, List.mem_range]

/-- Membership in the sampled pixel enumeration. -/
theorem mem_sampledPixels {h w y x : ℕ} :
    (y, x) ∈ sampledPixels h w ↔ (y < h ∧ y % 2 = 0) ∧ x < w ∧ x % 2 = 0 := by
  simp only [sampledPixels, List.mem_flatMap, List.mem_map]
  constructor
  · rintro ⟨y', hy', x', hx', heq⟩
    injection heq with h1 h2
    subst h1
    subst h2
    exact ⟨mem_sampledCoords.1 hy', mem_sampledCoords.1 hx'⟩
  · rintro ⟨hy, hx⟩
    exact ⟨y, mem_sampledCoords.2 hy, x, mem_sampledCoords.2 hx, rfl⟩

/-- The sampled pixel enumeration never repeats a pixel. -/
theorem sampledPixels_nodup (h w : ℕ) : (sampledPixels h w).Nodup := by
  apply List.nodup_flatMap.2
  constructor
  · intro y _
    exact ((List.nodup_range w).filter _).map (fun a b hab => by
      simpa using congrArg Prod.snd hab)
  · apply List.Pairwise.imp ?_ (((List.nodup_range h).filter _) : (sampledCoords h).Pairwise (· ≠ ·))
    intro a b hab
    intro z hza hzb
    obtain ⟨xa, _, rfl⟩ := List.mem_map.1 hza
    obtain ⟨xb, _, hzeq⟩ := List.mem_map.1 hzb
    exact hab (congrArg Prod.fst hzeq).symm

/-- Filtering a duplicate-free list by the indicator of one of its members
leaves exactly that member. -/
theorem filter_indicator {α : Type} [DecidableEq α] (l : List α) (a : α)
    (hnd : l.Nodup) (hm : a ∈ l) (p : α → Bool) (hp : ∀ x, p x = true ↔ x = a) :
    l.filter p = [a] := by
  induction l with
  | nil => exact absurd hm (List.not_mem_nil a)
  | cons hd tl ih =>
    rcases List.mem_cons.1 hm with rfl | hmem
    · rw [List.filter_cons_of_pos ((hp a).2 rfl)]
      have : tl.filter p = [] := by
        apply List.filter_eq_nil_iff.2
        intro b hb
        intro hpb
        exact (List.nodup_cons.1 hnd).1 (((hp b).1 hpb) ▸ hb)
      rw [this]
    · have hne : hd ≠ a := fun he => (List.nodup_cons.1 hnd).1 (he ▸ hmem)
      rw [List.filter_cons_of_neg (by simp [hp, hne])]
      exact ih (List.nodup_cons.1 hnd).2 hmem

/-- The nonzero-depth pixels of the worked example reduce to the single
pixel (240, 320). -/
theorem exDepth_filter :
    (sampledPixels exDepth.h exDepth.w).filter
      (fun p => exDepth.px p.1 p.2 ≠ 0) = [(240, 320)] := by
  apply filter_indicator _ _ (sampledPixels_nodup _ _)
  · exact mem_sampledPixels.2 (by norm_num [exDepth])
  · rintro ⟨y, x⟩
    by_cases hc : y = 240 ∧ x = 320
    · obtain ⟨rfl, rfl⟩ := hc
      simp [exDepth]
    · have h0 : exDepth.px y x = 0 := by simp [exDepth, hc]
      simp only [h0, decide_eq_true_eq, ne_eq, not_true_eq_false]
      constructor
      · intro hcon; exact hcon.elim
      · intro he
        injection he with h1 h2
        exact absurd ⟨h1, h2⟩ hc

/-- C1: for every depth grid, color grid, depth scale and calibration, the
point-cloud builder visits sampled pixels at stride-2 intervals and, for
each sampled pixel (y, x) with nonzero depth, appends the point
`[(x - ppx) * z / fx, (y - ppy) * z / fy, z]` with `z = depth * scale`,
together with that pixel's color; in particular, with fx = fy = 600,
ppx = 320, ppy = 240, depth scale = 0.001, the pixel (x = 320, y = 240)
with raw depth 1000 yields the point [0.0, 0.0, 1.0]. -/
theorem C1_builder_unprojects :
    (∀ (depth : Grid ℕ) (scale : ℚ) (colorBGR : Grid (ℕ × ℕ × ℕ)) (i : Intr)
       (ts : Decimal) (pc : Snapshot),
       generate_point_cloud depth scale colorBGR (some i) ts = some pc →
       pc.points = ((sampledPixels depth.h depth.w).filter
                      (fun p => depth.px p.1 p.2 ≠ 0)).map
                     (fun p => unproject i scale p.1 p.2 (depth.px p.1 p.2)) ∧
       pc.colors = ((sampledPixels depth.h depth.w).filter
                      (fun p => depth.px p.1 p.2 ≠ 0)).map
                     (fun p => bgr2rgb (colorBGR.px p.1 p.2)) ∧
       pc.timestamp = ts) ∧
    generate_point_cloud exDepth (1 / 1000) exColor (some exIntr) exTs =
      some { points := [(0, 0, 1)], colors := [(30, 20, 10)], timestamp := exTs } := by
  constructor
  · intro depth scale colorBGR i ts pc h
    simp only [generate_point_cloud, Option.map_eq_some'] at h
    obtain ⟨acc, hacc, hpc⟩ := h
    obtain ⟨hps, hcs⟩ := buildLoop_eq _ _ _ _ _ _ _ hacc
    subst hpc
    exact ⟨hps, hcs, rfl⟩
  · simp only [generate_point_cloud]
    rw [buildLoop_some _ _ _ _ _ (by norm_num [exIntr]) (by norm_num [exIntr])
      (by
        intro p hp hnz
        have hpeq : p = (240, 320) := by
          by_contra hne
          obtain ⟨y, x⟩ := p
          apply hnz
          simp only [exDepth]
          rw [if_neg]
          intro hc
          obtain ⟨rfl, rfl⟩ := hc
          exact hne rfl
        subst hpeq
        exact ⟨by norm_num [exColor], by norm_num [exColor]⟩)]
    rw [show ((sampledPixels exDepth.h exDepth.w).filter
          (fun p => exDepth.px p.1 p.2 ≠ 0)) = [(240, 320)] from exDepth_filter]
    simp only [List.map_cons, List.map_nil, Option.map_some']
    norm_num [unproject, exDepth, exIntr, exColor, bgr2rgb]

/-- Concrete evaluation of the builder on the one-pixel witness inputs. -/
theorem w1_eval :
    generate_point_cloud w1depth 1 w1color (some w1intr) exTs =
      some { points := [(0, 0, 7)], colors := [(3, 2, 1)], timestamp := exTs } := by
  simp only [generate_point_cloud]
  rw [show sampledPixels w1depth.h w1depth.w = [(0, 0)] from by decide]
  simp only [buildLoop]
  norm_num [w1depth, w1color, w1intr, bgr2rgb, unproject, Snapshot.mk.injEq]

/-- Witness for C1: a concrete one-pixel run of the builder, with the
per-pixel rule instantiated on it. -/
theorem C1_builder_unprojects_witness :
    generate_point_cloud w1depth 1 w1color (some w1intr) exTs =
      some { points := [(0, 0, 7)], colors := [(3, 2, 1)], timestamp := exTs } ∧
    (Snapshot.points { points := [(0, 0, 7)], colors := [(3, 2, 1)], timestamp := exTs }) =
      ((sampledPixels w1depth.h w1depth.w).filter
         (fun p => w1depth.px p.1 p.2 ≠ 0)).map
        (fun p => unproject w1intr 1 p.1 p.2 (w1depth.px p.1 p.2)) :=
  ⟨w1_eval, (C1_builder_unprojects.1 w1depth 1 w1color w1intr exTs
      { points := [(0, 0, 7)], colors := [(3, 2, 1)], timestamp := exTs }
      w1_eval).1⟩

/-- C2: for every accepted depth/color grid pair the snapshot has as many
colors as points with index-wise correspondence, every point stems from a
sampled pixel with nonzero depth, and an all-zero depth grid yields the
empty snapshot. -/
theorem C2_snapshot_invariants :
    ∀ (depth : Grid ℕ) (scale : ℚ) (colorBGR : Grid (ℕ × ℕ × ℕ))
      (intr : Option Intr) (ts : Decimal) (pc : Snapshot),
      generate_point_cloud depth scale colorBGR intr ts = some pc →
      pc.points.length = pc.colors.length ∧
      (∀ j : ℕ, j < pc.points.length →
        ∃ y x i, intr = some i ∧ (y, x) ∈ sampledPixels depth.h depth.w ∧
          depth.px y x ≠ 0 ∧
          pc.points[j]? = some (unproject i scale y x (depth.px y x)) ∧
          pc.colors[j]? = some (bgr2rgb (colorBGR.px y x))) ∧
      ((∀ p ∈ sampledPixels depth.h depth.w, depth.px p.1 p.2 = 0) →
        pc = { points := [], colors := [], timestamp := ts }) := by
  intro depth scale colorBGR intr ts pc h
  simp only [generate_point_cloud, Option.map_eq_some'] at h
  obtain ⟨acc, hacc, hpc⟩ := h
  subst hpc
  rcases intr with _ | i
  · obtain ⟨hacc0, hall⟩ := buildLoop_none_calib _ _ _ _ _ hacc
    subst hacc0
    refine ⟨rfl, ?_, fun _ => rfl⟩
    intro j hj
    exact absurd hj (by simp)
  · obtain ⟨hps, hcs⟩ := buildLoop_eq _ _ _ _ _ _ _ hacc
    refine ⟨?_, ?_, ?_⟩
    · simp [hps, hcs]
    · intro j hj
      simp only [hps, List.length_map] at hj
      have hget := List.getElem?_eq_getElem hj
      have hmem := List.getElem_mem hj
      have hmem' := List.mem_filter.1 hmem
      refine ⟨_, _, i, rfl, hmem'.1, by simpa using hmem'.2, ?_, ?_⟩
      · rw [hps, List.getElem?_map, hget]
        rfl
      · rw [hcs, List.getElem?_map, hget]
        rfl
    · intro hall
      have hfe : (sampledPixels depth.h depth.w).filter
          (fun p => depth.px p.1 p.2 ≠ 0) = [] := by
        apply List.filter_eq_nil_iff.2
        intro p hp
        simp [hall p hp]
      simp only [hps, hcs, hfe, List.map_nil]

/-- Witness for C2: the length invariant instantiated on a concrete
one-pixel build. -/
theorem C2_snapshot_invariants_witness :
    generate_point_cloud w1depth 1 w1color (some w1intr) exTs =
      some { points := [(0, 0, 7)], colors := [(3, 2, 1)], timestamp := exTs } ∧
    (Snapshot.points { points := [(0, 0, 7)], colors := [(3, 2, 1)], timestamp := exTs }).length =
      (Snapshot.colors { points := [(0, 0, 7)], colors := [(3, 2, 1)], timestamp := exTs }).length :=
  ⟨w1_eval, (C2_snapshot_invariants w1depth 1 w1color (some w1intr) exTs
      { points := [(0, 0, 7)], colors := [(3, 2, 1)], timestamp := exTs }
      w1_eval).1⟩

/-- Send events of one round, one per member in iteration order. -/
theorem sendLoop_trace (fails : ℕ → Bool) (clients : List ℕ) :
    (sendLoop fails clients).1 = clients.map (fun c => BEv.send c (!fails c)) := by
  induction clients with
  | nil => rfl
  | cons c rest ih => simp [sendLoop, ih]

/-- Disconnected set accumulated by one round: exactly the failing members. -/
theorem sendLoop_dis (fails : ℕ → Bool) (clients : List ℕ) :
    (sendLoop fails clients).2 = clients.filter fails := by
  induction clients with
  | nil => rfl
  | cons c rest ih =>
    by_cases hf : fails c
    · simp [sendLoop, ih, hf, List.filter_cons]
    · simp [sendLoop, ih, hf, List.filter_cons]

/-- Full trace of one round: lock acquire, every send in order, the
removals of the failing members, lock release. -/
theorem stream_round_trace (clients : List ℕ) (fails : ℕ → Bool) :
    (stream_round clients fails).1 =
      BEv.acq :: (clients.map (fun c => BEv.send c (!fails c)) ++
        ((clients.filter fails).map BEv.remove ++ [BEv.rel])) := by
  simp [stream_round, sendLoop_trace, sendLoop_dis]

/-- Registry left by one round: the members whose send did not fail. -/
theorem stream_round_clients (clients : List ℕ) (fails : ℕ → Bool) :
    (stream_round clients fails).2 = clients.filter (fun c => !fails c) := by
  simp only [stream_round, sendLoop_dis]
  apply List.filter_congr
  intro c hc
  by_cases hf : fails c <;> simp [List.mem_filter, hc, hf]

/-- `takeWhile` runs past a prefix it accepts entirely. -/
theorem takeWhile_append_all {α : Type} {p : α → Bool} (xs ys : List α)
    (h : ∀ e ∈ xs, p e = true) :
    (xs ++ ys).takeWhile p = xs ++ ys.takeWhile p := by
  induction xs with
  | nil => rfl
  | cons a l ih =>
    rw [List.cons_append, List.takeWhile_cons,
      if_pos (h a (List.mem_cons_self _ _)), ih (fun e he => h e (List.mem_cons_of_mem _ he)),
      List.cons_append]

/-- Critical section of a round trace: every send and every removal of the
round happens between the lock acquire and its release. -/
theorem critSection_stream_round (clients : List ℕ) (fails : ℕ → Bool) :
    critSection (stream_round clients fails).1 =
      clients.map (fun c => BEv.send c (!fails c)) ++
        (clients.filter fails).map BEv.remove := by
  rw [stream_round_trace]
  simp only [critSection, List.dropWhile_cons]
  rw [if_neg (by simp)]
  simp only [List.drop_succ_cons, List.drop_zero]
  rw [← List.append_assoc]
  rw [takeWhile_append_all _ _ ?side]
  case side =>
    intro e he
    rcases List.mem_append.1 he with hs | hr
    · obtain ⟨c, _, rfl⟩ := List.mem_map.1 hs
      simp
    · obtain ⟨c, _, rfl⟩ := List.mem_map.1 hr
      simp
  rw [List.takeWhile_cons, if_neg (by simp), List.append_nil]

/-- C4 counterexample: already in the one-client round, the send event
happens inside the registry's critical section — `stream_to_clients`
iterates `self.clients` and awaits every send while still holding
`self.lock`, with no point-in-time copy taken first. -/
theorem C4_counterexample :
    ¬ sendsOutsideCrit (stream_round [1] (fun _ => false)).1 := by
  intro hout
  have hres := hout (BEv.send 1 true) (by decide)
  simp [isSendEv] at hres

/-- C4 amended: each fan-out round iterates the registry as it stands at
round start, but the whole send loop runs inside the registry's critical
section: every send event and every removal lies between the lock acquire
and its release, so concurrent membership mutations are blocked, not
merely unobserved, for the duration of the round. -/
theorem C4_round_holds_lock :
    ∀ (clients : List ℕ) (fails : ℕ → Bool),
      (∀ c ∈ clients, BEv.send c (!fails c) ∈ critSection (stream_round clients fails).1) ∧
      critSection (stream_round clients fails).1 =
        clients.map (fun c => BEv.send c (!fails c)) ++
          (clients.filter fails).map BEv.remove ∧
      (stream_round clients fails).2 = clients.filter (fun c => !fails c) := by
  intro clients fails
  refine ⟨?_, critSection_stream_round clients fails, stream_round_clients clients fails⟩
  intro c hc
  rw [critSection_stream_round]
  exact List.mem_append_left _ (List.mem_map_of_mem _ hc)

/-- Witness for C4 amended: the send to client 1 of a concrete two-client
round lies inside the critical section. -/
theorem C4_round_holds_lock_witness :
    BEv.send 1 true ∈ critSection (stream_round [1, 2] (fun c => c = 2)).1 := by
  have hres := (C4_round_holds_lock [1, 2] (fun c => c = 2)).1 1 (by decide)
  simpa using hres

/-- Arrival time of a member: all earlier members' send durations have to
elapse first, plus its own. -/
theorem sendTimesFrom_mem (dur : ℕ → ℚ) :
    ∀ (pre : List ℕ) (c : ℕ) (post : List ℕ) (t : ℚ),
      (c, t + (pre.map dur).sum + dur c) ∈ sendTimesFrom dur (pre ++ c :: post) t := by
  intro pre
  induction pre with
  | nil =>
    intro c post t
    simp only [List.nil_append, sendTimesFrom, List.map_nil, List.sum_nil, add_zero]
    exact List.mem_cons_self _ _
  | cons p pre' ih =>
    intro c post t
    simp only [List.cons_append, sendTimesFrom]
    apply List.mem_cons_of_mem
    have hres := ih c post (t + dur p)
    rw [show t + ((p :: pre').map dur).sum + dur c
        = t + dur p + (pre'.map dur).sum + dur c by simp [List.map_cons]; ring]
    exact hres

/-- C5 counterexample: with three clients where client 1's send takes one
second and the others are instantaneous, client 2 receives the payload
only one full second into the round — far beyond the 33 ms tick period —
and the slow client 1 is still registered after the round, since nothing
removes a merely slow sender. -/
theorem C5_counterexample :
    (roundRecvTimes [1, 2, 3] exDur)[1]? = some (2, 1) ∧
    ¬ ((1 : ℚ) ≤ tickPeriod) ∧
    1 ∈ (stream_round [1, 2, 3] (fun _ => false)).2 := by
  refine ⟨?_, by norm_num [tickPeriod], by decide⟩
  simp only [roundRecvTimes, sendTimesFrom, exDur]
  norm_num

/-- C5 amended: dispatch is a sequential chain of awaited sends with no
per-client timeout: a member's payload arrives only after the send
durations of every earlier member have elapsed (so round latency scales
with the members and their slowness), every non-failing member stays
registered no matter how slow its send is, and a member is removed only
when its send raises. -/
theorem C5_sequential_no_timeout :
    ∀ (clients : List ℕ) (dur : ℕ → ℚ) (fails : ℕ → Bool),
      (∀ (pre : List ℕ) (c : ℕ) (post : List ℕ), clients = pre ++ c :: post →
        (c, (pre.map dur).sum + dur c) ∈ roundRecvTimes clients dur) ∧
      (∀ c ∈ clients, fails c = false → c ∈ (stream_round clients fails).2) ∧
      (∀ c ∈ clients, c ∉ (stream_round clients fails).2 → fails c = true) := by
  intro clients dur fails
  refine ⟨?_, ?_, ?_⟩
  · intro pre c post hsplit
    subst hsplit
    have hres := sendTimesFrom_mem dur pre c post 0
    simpa [roundRecvTimes] using hres
  · intro c hc hf
    rw [stream_round_clients]
    exact List.mem_filter.2 ⟨hc, by simp [hf]⟩
  · intro c hc hnot
    by_contra hf
    apply hnot
    rw [stream_round_clients]
    exact List.mem_filter.2 ⟨hc, by simp [Bool.not_eq_true] at hf; simp [hf]⟩

/-- Witness for C5 amended: instantiated on the concrete slow-client
round. -/
theorem C5_sequential_no_timeout_witness :
    (2, ((([1] : List ℕ)).map exDur).sum + exDur 2) ∈ roundRecvTimes [1, 2, 3] exDur :=
  (C5_sequential_no_timeout [1, 2, 3] exDur (fun _ => false)).1 [1] 2 [3] rfl

/-- C6: a member whose send raises is marked during the round and removed
from the registry after the round, every member of the round still gets
its send attempt (one failure aborts nothing), non-failing members stay
registered, and the trace shows all removals happening after every send
of the round. -/
theorem C6_failure_isolated :
    ∀ (clients : List ℕ) (fails : ℕ → Bool) (c : ℕ),
      c ∈ clients → fails c = true →
      BEv.send c false ∈ (stream_round clients fails).1 ∧
      c ∉ (stream_round clients fails).2 ∧
      (∀ c' ∈ clients, BEv.send c' (!fails c') ∈ (stream_round clients fails).1) ∧
      (∀ c' ∈ clients, fails c' = false → c' ∈ (stream_round clients fails).2) ∧
      (stream_round clients fails).1 =
        BEv.acq :: (clients.map (fun c' => BEv.send c' (!fails c')) ++
          ((clients.filter fails).map BEv.remove ++ [BEv.rel])) := by
  intro clients fails c hc hf
  have hmemsend : ∀ c' ∈ clients,
      BEv.send c' (!fails c') ∈ (stream_round clients fails).1 := by
    intro c' hc'
    rw [stream_round_trace]
    exact List.mem_cons_of_mem _
      (List.mem_append_left _ (List.mem_map_of_mem _ hc'))
  refine ⟨?_, ?_, hmemsend, ?_, stream_round_trace clients fails⟩
  · have hres := hmemsend c hc
    rwa [hf] at hres
  · rw [stream_round_clients]
    intro hmem
    have := (List.mem_filter.1 hmem).2
    simp [hf] at this
  · intro c' hc' hf'
    rw [stream_round_clients]
    exact List.mem_filter.2 ⟨hc', by simp [hf']⟩

/-- Witness for C6: the failing client 2 of a concrete three-client round
is gone from the registry after the round. -/
theorem C6_failure_isolated_witness :
    2 ∉ (stream_round [1, 2, 3] (fun c => c = 2)).2 :=
  (C6_failure_isolated [1, 2, 3] (fun c => c = 2) 2 (by decide) (by decide)).2.1

/-- Concrete evaluation of the builder on the mismatched-dimension pair:
2 x 2 depth against 4 x 4 color. -/
theorem mm_eval :
    generate_point_cloud mmDepth 1 mmColor (some w1intr) exTs =
      some { points := [(0, 0, 5)], colors := [(9, 9, 9)], timestamp := exTs } := by
  simp only [generate_point_cloud]
  rw [show sampledPixels mmDepth.h mmDepth.w = [(0, 0)] from by decide]
  simp only [buildLoop]
  norm_num [mmDepth, mmColor, w1intr, bgr2rgb, unproject, Snapshot.mk.injEq]

/-- C9 counterexample: a depth grid and a color grid of different
dimensions (2 x 2 against 4 x 4) on which the builder nevertheless
succeeds — indexing a larger color grid raises nothing, so a dimension
mismatch does not imply an error result. -/
theorem C9_counterexample :
    (mmDepth.h ≠ mmColor.h ∧ mmDepth.w ≠ mmColor.w) ∧
    (generate_point_cloud mmDepth 1 mmColor (some w1intr) exTs).isSome = true := by
  refine ⟨by decide, ?_⟩
  rw [mm_eval]
  rfl

/-- C9 amended: the builder returns an error result (`None`, never an
uncaught exception) when the calibration is absent while some sampled
pixel has nonzero depth, and when some sampled nonzero-depth pixel falls
outside the color grid (the only way a dimension mismatch is detected);
the caller treats the error as skipping the tick: nothing is sent and the
registry is untouched. -/
theorem C9_error_result_skips_tick :
    (∀ (depth : Grid ℕ) (scale : ℚ) (colorBGR : Grid (ℕ × ℕ × ℕ)) (ts : Decimal)
       (p : ℕ × ℕ), p ∈ sampledPixels depth.h depth.w → depth.px p.1 p.2 ≠ 0 →
       generate_point_cloud depth scale colorBGR none ts = none) ∧
    (∀ (depth : Grid ℕ) (scale : ℚ) (colorBGR : Grid (ℕ × ℕ × ℕ)) (i : Intr)
       (ts : Decimal) (p : ℕ × ℕ), p ∈ sampledPixels depth.h depth.w →
       depth.px p.1 p.2 ≠ 0 → (colorBGR.h ≤ p.1 ∨ colorBGR.w ≤ p.2) →
       generate_point_cloud depth scale colorBGR (some i) ts = none) ∧
    (∀ (depth : Grid ℕ) (scale : ℚ) (colorBGR : Grid (ℕ × ℕ × ℕ))
       (intr : Option Intr) (ts : Decimal) (clients : List ℕ) (fails : ℕ → Bool),
       generate_point_cloud depth scale colorBGR intr ts = none →
       stream_tick depth scale colorBGR intr ts clients fails = ([], clients)) := by
  refine ⟨?_, ?_, ?_⟩
  · intro depth scale colorBGR ts p hp hnz
    cases hres : generate_point_cloud depth scale colorBGR none ts with
    | none => rfl
    | some pc =>
      exfalso
      simp only [generate_point_cloud, Option.map_eq_some'] at hres
      obtain ⟨acc, hacc, -⟩ := hres
      obtain ⟨⟨i, hi, -, -⟩, -⟩ := buildLoop_requires _ _ _ _ _ _ hacc p hp hnz
      exact Option.noConfusion hi
  · intro depth scale colorBGR i ts p hp hnz hout
    cases hres : generate_point_cloud depth scale colorBGR (some i) ts with
    | none => rfl
    | some pc =>
      exfalso
      simp only [generate_point_cloud, Option.map_eq_some'] at hres
      obtain ⟨acc, hacc, -⟩ := hres
      obtain ⟨-, hh, hw⟩ := buildLoop_requires _ _ _ _ _ _ hacc p hp hnz
      rcases hout with hge | hge
      · exact absurd hh (by simpa using hge)
      · exact absurd hw (by simpa using hge)
  · intro depth scale colorBGR intr ts clients fails hnone
    simp only [stream_tick, hnone]

/-- Witness for C9 amended: the builder errors on a concrete nonzero-depth
grid with the calibration absent. -/
theorem C9_error_result_skips_tick_witness :
    generate_point_cloud w1depth 1 w1color none exTs = none :=
  C9_error_result_skips_tick.1 w1depth 1 w1color exTs (0, 0) (by decide) (by decide)

/-- Successful deliveries of a round reach every non-failing member. -/
theorem roundDeliveries_mem (payload : List ℕ) (clients : List ℕ)
    (fails : ℕ → Bool) (c : ℕ) (hc : c ∈ clients) (hf : fails c = false) :
    (c, payload) ∈ roundDeliveries payload clients fails := by
  unfold roundDeliveries
  apply List.mem_filterMap.2
  refine ⟨BEv.send c true, ?_, rfl⟩
  rw [stream_round_trace]
  apply List.mem_cons_of_mem
  apply List.mem_append_left
  exact List.mem_map.2 ⟨c, hc, by rw [hf]; rfl⟩

/-- C10: when every sampled pixel has zero depth the builder returns the
empty snapshot (not an error), the empty snapshot still encodes
successfully, and the resulting payload is still delivered to every
registered client whose send does not fail — empty ticks are broadcast,
not skipped. -/
theorem C10_empty_tick_broadcast :
    ∀ (depth : Grid ℕ) (scale : ℚ) (colorBGR : Grid (ℕ × ℕ × ℕ))
      (intr : Option Intr) (ts : Decimal) (clients : List ℕ) (fails : ℕ → Bool),
      (∀ p ∈ sampledPixels depth.h depth.w, depth.px p.1 p.2 = 0) →
      generate_point_cloud depth scale colorBGR intr ts =
        some { points := [], colors := [], timestamp := ts } ∧
      compress_point_cloud { points := [], colors := [], timestamp := ts } =
        some (encodeSnapshot { points := [], colors := [], timestamp := ts }) ∧
      (∀ c ∈ clients, fails c = false →
        (c, encodeSnapshot { points := [], colors := [], timestamp := ts }) ∈
          (stream_tick depth scale colorBGR intr ts clients fails).1) := by
  intro depth scale colorBGR intr ts clients fails hall
  have hgen : generate_point_cloud depth scale colorBGR intr ts =
      some { points := [], colors := [], timestamp := ts } := by
    simp only [generate_point_cloud]
    rw [buildLoop_all_zero _ _ _ _ _ hall]
    rfl
  have hcomp : compress_point_cloud
      { points := [], colors := [], timestamp := ts } =
      some (encodeSnapshot { points := [], colors := [], timestamp := ts }) := by
    simp [compress_point_cloud, snapToWire, List.mapM.loop]
  refine ⟨hgen, hcomp, ?_⟩
  intro c hc hf
  simp only [stream_tick, hgen, hcomp]
  exact roundDeliveries_mem _ clients fails c hc hf

/-- Witness for C10: a concrete all-zero tick, with no calibration at all,
still delivers the empty-snapshot payload to client 4. -/
theorem C10_empty_tick_broadcast_witness :
    (4, encodeSnapshot { points := [], colors := [], timestamp := exTs }) ∈
      (stream_tick zDepth 1 w1color none exTs [4, 5] (fun _ => false)).1 :=
  (C10_empty_tick_broadcast zDepth 1 w1color none exTs [4, 5] (fun _ => false)
    (by decide)).2.2 4 (by decide) rfl

/-- Running a schedule splits at list append. -/
theorem runFrom_append (s : NetSt) (l1 l2 : List CAct) :
    runFrom s (l1 ++ l2) = runFrom (runFrom s l1) l2 := by
  simp [runFrom, List.foldl_append]

/-- A connection that never registers and never sends its welcome during a
schedule stays unregistered with an untouched inbox. -/
theorem runFrom_untouched (c : ℕ) :
    ∀ (acts : List CAct) (s : NetSt),
      (∀ a ∈ acts, a ≠ CAct.reg c ∧ a ≠ CAct.hello c) → c ∉ s.registry →
      (runFrom s acts).inbox c = s.inbox c ∧ c ∉ (runFrom s acts).registry := by
  intro acts
  induction acts with
  | nil => intro s _ hreg; exact ⟨rfl, hreg⟩
  | cons a rest ih =>
    intro s hacts hreg
    have ha := hacts a (List.mem_cons_self _ _)
    have hrest := fun a' h' => hacts a' (List.mem_cons_of_mem _ h')
    have hstep : (cstep s a).inbox c = s.inbox c ∧ c ∉ (cstep s a).registry := by
      cases a with
      | reg d =>
        refine ⟨rfl, ?_⟩
        simp only [cstep, List.mem_append, List.mem_singleton]
        rintro (hin | rfl)
        · exact hreg hin
        · exact ha.1 rfl
      | hello d =>
        refine ⟨?_, hreg⟩
        simp only [cstep]
        rw [if_neg (fun hcd => ha.2 (by rw [hcd]))]
      | tick =>
        refine ⟨?_, hreg⟩
        simp only [cstep]
        rw [if_neg hreg]
    obtain ⟨h1, h2⟩ := hstep
    obtain ⟨h3, h4⟩ := ih (cstep s a) hrest h2
    rw [show runFrom s (a :: rest) = runFrom (cstep s a) rest from rfl]
    exact ⟨h3.trans h1, h4⟩

/-- A schedule without a connection's welcome send only ever appends
binary payloads to that connection's inbox. -/
theorem runFrom_no_hello (c : ℕ) :
    ∀ (acts : List CAct) (s : NetSt), (∀ a ∈ acts, a ≠ CAct.hello c) →
      ∃ ext, (runFrom s acts).inbox c = s.inbox c ++ ext ∧
        ∀ m ∈ ext, m = CMsg.blob := by
  intro acts
  induction acts with
  | nil => intro s _; exact ⟨[], by simp [runFrom], by simp⟩
  | cons a rest ih =>
    intro s hacts
    have ha := hacts a (List.mem_cons_self _ _)
    have hrest := fun a' h' => hacts a' (List.mem_cons_of_mem _ h')
    have hpre : ∃ pre, (cstep s a).inbox c = s.inbox c ++ pre ∧
        ∀ m ∈ pre, m = CMsg.blob := by
      cases a with
      | reg d => exact ⟨[], by simp [cstep], by simp⟩
      | hello d =>
        refine ⟨[], ?_, by simp⟩
        simp only [cstep]
        rw [if_neg (fun hcd => ha (by rw [hcd])), List.append_nil]
      | tick =>
        by_cases hin : c ∈ s.registry
        · exact ⟨[CMsg.blob], by simp [cstep, hin], by simp⟩
        · exact ⟨[], by simp [cstep, hin], by simp⟩
    obtain ⟨pre, hp1, hp2⟩ := hpre
    obtain ⟨ext, he1, he2⟩ := ih (cstep s a) hrest
    refine ⟨pre ++ ext, ?_, ?_⟩
    · rw [show runFrom s (a :: rest) = runFrom (cstep s a) rest from rfl, he1, hp1,
        List.append_assoc]
    · intro m hm
      rcases List.mem_append.1 hm with h | h
      · exact hp2 m h
      · exact he2 m h

/-- C7 counterexample: in the legal interleaving where a broadcast tick
runs between the registration and the welcome send, the freshly connected
client receives a binary payload before its handshake — nothing in
`handle_client` orders the welcome ahead of the concurrently running
broadcast. -/
theorem C7_counterexample :
    (crun [CAct.reg 7, CAct.tick, CAct.hello 7]).inbox 7 =
      [CMsg.blob, CMsg.welcome 7] := by
  decide

/-- C7 amended: the client receives exactly one handshake carrying its
assigned id, sent after registration; when no broadcast tick interleaves
between the registration and the welcome send, the handshake is the first
message the client receives and everything after it is binary —
but the ordering holds only under that adjacency, as the counterexample
shows. -/
theorem C7_handshake_first :
    ∀ (pre post : List CAct) (c : ℕ),
      (∀ a ∈ pre, a ≠ CAct.reg c ∧ a ≠ CAct.hello c) →
      (∀ a ∈ post, a ≠ CAct.hello c) →
      ∃ bs, (crun (pre ++ CAct.reg c :: CAct.hello c :: post)).inbox c =
              CMsg.welcome c :: bs ∧ ∀ m ∈ bs, m = CMsg.blob := by
  intro pre post c hpre hpost
  unfold crun
  rw [runFrom_append]
  obtain ⟨h1, -⟩ := runFrom_untouched c pre { registry := [], inbox := fun _ => [] }
    hpre (by simp)
  rw [show (CAct.reg c :: CAct.hello c :: post : List CAct)
      = [CAct.reg c, CAct.hello c] ++ post from rfl, runFrom_append]
  obtain ⟨ext, he1, he2⟩ := runFrom_no_hello c post _ hpost
  refine ⟨ext, ?_, he2⟩
  rw [he1]
  have h2 : (runFrom (runFrom { registry := [], inbox := fun _ => [] } pre)
      [CAct.reg c, CAct.hello c]).inbox c = [CMsg.welcome c] := by
    have h1f : (List.foldl cstep { registry := [], inbox := fun _ => [] } pre).inbox c
        = [] := h1
    simp only [runFrom, List.foldl_cons, List.foldl_nil]
    simp [cstep, h1f]
  rw [h2]
  rfl

/-- Witness for C7 amended: a concrete schedule with the welcome adjacent
to the registration; the tick that follows delivers only binary
payloads after the handshake. -/
theorem C7_handshake_first_witness :
    ∃ bs, (crun ([CAct.reg 3] ++ CAct.reg 7 :: CAct.hello 7 :: [CAct.tick])).inbox 7 =
            CMsg.welcome 7 :: bs ∧ ∀ m ∈ bs, m = CMsg.blob :=
  C7_handshake_first [CAct.reg 3] [CAct.tick] 7 (by decide) (by decide)

/-- C8 counterexample: the valid but unrecognized control message
`{"type": "hello"}` is ignored without being logged — `handle_client`
prints only on decode errors and non-dict payloads, so "malformed or
unrecognized is logged" fails for recognized-shape objects. -/
theorem C8_counterexample :
    jsonParse helloMsg = some (PyVal.pobj [(typeKey, PyVal.pstr helloTag)]) ∧
    handle_client_message helloMsg =
      { replies := [], logged := false, closed := false } :=
  ⟨rfl, by decide⟩

/-- C8 amended: the handler never closes the connection and never raises
(it is a total function on messages); a message that fails JSON decoding
is logged and ignored; a decoded object tagged `'ping'` earns exactly one
`'pong'` reply; a decoded object without that tag is ignored silently
(not logged); a decoded non-object is logged and ignored. -/
theorem C8_control_replies :
    ∀ msg : List Char,
      (handle_client_message msg).closed = false ∧
      (jsonParse msg = none →
        handle_client_message msg = { replies := [], logged := true, closed := false }) ∧
      (∀ kvs, jsonParse msg = some (PyVal.pobj kvs) →
        dictGet typeKey kvs = some (PyVal.pstr pingTag) →
        handle_client_message msg =
          { replies := [pongChars], logged := false, closed := false }) ∧
      (∀ kvs, jsonParse msg = some (PyVal.pobj kvs) →
        dictGet typeKey kvs ≠ some (PyVal.pstr pingTag) →
        handle_client_message msg = { replies := [], logged := false, closed := false }) ∧
      (∀ v, jsonParse msg = some v → (∀ kvs, v ≠ PyVal.pobj kvs) →
        handle_client_message msg = { replies := [], logged := true, closed := false }) := by
  intro msg
  refine ⟨?g1, ?g2, ?g3, ?g4, ?g5⟩
  case g1 =>
    cases hj : jsonParse msg with
    | none => simp [handle_client_message, hj]
    | some v =>
      cases v with
      | pobj kvs =>
        simp only [handle_client_message, hj]
        cases hd : dictGet typeKey kvs with
        | none => rfl
        | some v' =>
          cases v' with
          | pstr s =>
            by_cases hs : s = pingTag
            · simp [hs]
            · simp [hs]
          | pint n => rfl
          | pdec d => rfl
          | pbool b => rfl
          | pnull => rfl
          | parr l => rfl
          | pobj kvs' => rfl
      | pstr s => simp [handle_client_message, hj]
      | pint n => simp [handle_client_message, hj]
      | pdec d => simp [handle_client_message, hj]
      | pbool b => simp [handle_client_message, hj]
      | pnull => simp [handle_client_message, hj]
      | parr l => simp [handle_client_message, hj]
  case g2 =>
    intro hj
    simp [handle_client_message, hj]
  case g3 =>
    intro kvs hj hget
    simp [handle_client_message, hj, hget]
  case g4 =>
    intro kvs hj hne
    simp only [handle_client_message, hj]
    cases hd : dictGet typeKey kvs with
    | none => rfl
    | some v' =>
      cases v' with
      | pstr s =>
        exact if_neg (fun hs => hne (by rw [hd, hs]))
      | pint n => rfl
      | pdec d => rfl
      | pbool b => rfl
      | pnull => rfl
      | parr l => rfl
      | pobj kvs' => rfl
  case g5 =>
    intro v hj hnobj
    cases v with
    | pobj kvs => exact absurd rfl (hnobj kvs)
    | pstr s => simp [handle_client_message, hj]
    | pint n => simp [handle_client_message, hj]
    | pdec d => simp [handle_client_message, hj]
    | pbool b => simp [handle_client_message, hj]
    | pnull => simp [handle_client_message, hj]
    | parr l => simp [handle_client_message, hj]

/-- Witness for C8 amended: the exact `json.dumps({'type': 'ping'})` text
earns exactly one pong. -/
theorem C8_control_replies_witness :
    jsonParse pingMsg = some (PyVal.pobj [(typeKey, PyVal.pstr pingTag)]) ∧
    handle_client_message pingMsg =
      { replies := [pongChars], logged := false, closed := false } :=
  ⟨rfl, (C8_control_replies pingMsg).2.2.1 [(typeKey, PyVal.pstr pingTag)] rfl rfl⟩

/-- Expanding a counted run restores the original prefix. -/
theorem rleCount_spec (b : ℕ) :
    ∀ (cap : ℕ) (l : List ℕ),
      List.replicate (rleCount b cap l) b ++ l.drop (rleCount b cap l) = l := by
  intro cap
  induction cap with
  | zero => intro l; simp [rleCount]
  | succ cap ih =>
    intro l
    cases l with
    | nil => simp [rleCount]
    | cons c cs =>
      by_cases hc : c = b
      · subst hc
        rw [show rleCount c (cap + 1) (c :: cs) = rleCount c cap cs + 1 from by
          simp [rleCount]]
        rw [List.replicate_succ, List.cons_append, List.drop_succ_cons, ih cs]
      · simp [rleCount, hc]

/-- Losslessness of the byte compressor standing in for gzip. -/
theorem rle_roundtrip (l : List ℕ) : rleDecompress (rleCompress l) = l := by
  have H : ∀ (n : ℕ) (l : List ℕ), l.length ≤ n →
      rleDecompress (rleCompress l) = l := by
    intro n
    induction n with
    | zero =>
      intro l hl
      rw [List.eq_nil_of_length_eq_zero (Nat.le_zero.1 hl)]
      simp [rleCompress, rleDecompress]
    | succ n ih =>
      intro l hl
      match l with
      | [] => simp [rleCompress, rleDecompress]
      | b :: rest =>
        rw [rleCompress]
        rw [rleDecompress]
        rw [ih (rest.drop (rleCount b 254 rest))
          (by simp only [List.length_drop]; simp at hl; omega)]
        rw [List.replicate_succ, List.cons_append, rleCount_spec]
  exact H l.length l le_rfl

/-- UTF-8 encoding then decoding of ASCII text is the identity. -/
theorem bytesChars_strBytes (cs : List Char) : bytesChars (strBytes cs) = cs := by
  induction cs with
  | nil => rfl
  | cons c l ih =>
    simp only [bytesChars, strBytes, List.map_cons] at ih ⊢
    rw [Char.ofNat_toNat, ih]

/-- Digit characters pass the digit test. -/
theorem isDig_digitChar {d : ℕ} (h : d < 10) : isDig (digitChar d) = true := by
  interval_cases d <;> decide

/-- Digit characters decode to their digit. -/
theorem charVal_digitChar {d : ℕ} (h : d < 10) : charVal (digitChar d) = d := by
  interval_cases d <;> decide

/-- Digit characters are not the minus sign. -/
theorem digitChar_ne_minus {d : ℕ} (h : d < 10) : digitChar d ≠ '-' := by
  interval_cases d <;> decide

/-- Decimal digit expansion is never empty. -/
theorem natDigitsBE_ne_nil (n : ℕ) : natDigitsBE n ≠ [] := by
  rw [natDigitsBE]
  split <;> simp

/-- Decimal digit expansion yields digits. -/
theorem natDigitsBE_lt_10 (n : ℕ) : ∀ d ∈ natDigitsBE n, d < 10 := by
  induction n using Nat.strong_induction_on with
  | _ n ih =>
    intro d hd
    rw [natDigitsBE] at hd
    split at hd
    · simp at hd
      omega
    · rcases List.mem_append.1 hd with h | h
      · exact ih (n / 10) (Nat.div_lt_self (by omega) (by omega)) d h
      · simp at h
        omega

/-- Folding digits from an arbitrary accumulator. -/
theorem foldl_digits_shift :
    ∀ (ds : List ℕ) (a : ℕ),
      ds.foldl (fun acc d => 10 * acc + d) a = a * 10 ^ ds.length + digitsVal ds := by
  intro ds
  induction ds with
  | nil => intro a; simp [digitsVal]
  | cons d ds ih =>
    intro a
    simp only [List.foldl_cons, digitsVal, List.length_cons] at ih ⊢
    rw [ih (10 * a + d), ih (10 * 0 + d)]
    ring

/-- Value of concatenated digit strings. -/
theorem digitsVal_append (l1 l2 : List ℕ) :
    digitsVal (l1 ++ l2) = digitsVal l1 * 10 ^ l2.length + digitsVal l2 := by
  simp only [digitsVal, List.foldl_append]
  rw [foldl_digits_shift l2 (List.foldl (fun acc d => 10 * acc + d) 0 l1)]
  rfl

/-- Leading zeros do not change a digit string's value. -/
theorem digitsVal_replicate_zero (k : ℕ) (l : List ℕ) :
    digitsVal (List.replicate k 0 ++ l) = digitsVal l := by
  rw [digitsVal_append]
  have hz : digitsVal (List.replicate k 0) = 0 := by
    induction k with
    | zero => rfl
    | succ k ih =>
      rw [List.replicate_succ]
      simpa [digitsVal, List.foldl_cons] using ih
  rw [hz]
  ring

/-- Digit expansion followed by evaluation is the identity. -/
theorem digitsVal_natDigitsBE (n : ℕ) : digitsVal (natDigitsBE n) = n := by
  induction n using Nat.strong_induction_on with
  | _ n ih =>
    rw [natDigitsBE]
    split
    · simp [digitsVal]
    · rw [digitsVal_append, ih (n / 10) (Nat.div_lt_self (by omega) (by omega))]
      simp [digitsVal]
      omega

/-- Reading printed digit characters recovers the digit string's value. -/
theorem charsVal_map_digitChar :
    ∀ (ds : List ℕ), (∀ d ∈ ds, d < 10) →
      charsVal (ds.map digitChar) = digitsVal ds := by
  have H : ∀ (ds : List ℕ) (a : ℕ), (∀ d ∈ ds, d < 10) →
      (ds.map digitChar).foldl (fun acc c => 10 * acc + charVal c) a =
        ds.foldl (fun acc d => 10 * acc + d) a := by
    intro ds
    induction ds with
    | nil => intro a _; rfl
    | cons d ds ih =>
      intro a hds
      simp only [List.map_cons, List.foldl_cons]
      rw [charVal_digitChar (hds d (List.mem_cons_self _ _))]
      exact ih _ (fun d' hd' => hds d' (List.mem_cons_of_mem _ hd'))
  intro ds hds
  exact H ds 0 hds

/-- `dropWhile` runs past a prefix it accepts entirely. -/
theorem dropWhile_append_all {α : Type} {p : α → Bool} (xs ys : List α)
    (h : ∀ e ∈ xs, p e = true) :
    (xs ++ ys).dropWhile p = ys.dropWhile p := by
  induction xs with
  | nil => rfl
  | cons a l ih =>
    rw [List.cons_append, List.dropWhile_cons, if_pos (h a (List.mem_cons_self _ _)),
      ih (fun e he => h e (List.mem_cons_of_mem _ he))]

/-- `takeWhile` stops immediately on a failing head. -/
theorem takeWhile_stop {α : Type} {p : α → Bool} (ys : List α) (h : headFail p ys) :
    ys.takeWhile p = [] := by
  cases ys with
  | nil => rfl
  | cons y l =>
    rw [List.takeWhile_cons, if_neg (by simp [headFail] at h; simp [h])]

/-- `dropWhile` keeps everything from a failing head on. -/
theorem dropWhile_stop {α : Type} {p : α → Bool} (ys : List α) (h : headFail p ys) :
    ys.dropWhile p = ys := by
  cases ys with
  | nil => rfl
  | cons y l =>
    rw [List.dropWhile_cons, if_neg (by simp [headFail] at h; simp [h])]

/-- Consuming a literal prefix succeeds on exactly that prefix. -/
theorem parseLit_append (p r : List Char) : parseLit p (p ++ r) = some r := by
  induction p with
  | nil => rfl
  | cons c cs ih => simp [parseLit, ih]

/-- Reading back a printed natural number. -/
theorem parseNat_print (n : ℕ) (r : List Char) (hr : headFail isDig r) :
    parseNat (printNat n ++ r) = some (n, r) := by
  have hall : ∀ c ∈ (natDigitsBE n).map digitChar, isDig c = true := by
    intro c hc
    obtain ⟨d, hd, rfl⟩ := List.mem_map.1 hc
    exact isDig_digitChar (natDigitsBE_lt_10 n d hd)
  unfold parseNat printNat
  rw [takeWhile_append_all _ _ hall, takeWhile_stop r hr, List.append_nil,
    dropWhile_append_all _ _ hall, dropWhile_stop r hr]
  rw [if_neg (by simp [natDigitsBE_ne_nil])]
  rw [charsVal_map_digitChar _ (natDigitsBE_lt_10 n), digitsVal_natDigitsBE]

/-- Reading back a printed integer. -/
theorem parseInt_print (m : ℤ) (r : List Char) (hr : headFail isDig r) :
    parseInt (printInt m ++ r) = some (m, r) := by
  by_cases hm : m < 0
  · rw [printInt, if_pos hm]
    rw [show (['-'] ++ printNat m.natAbs) ++ r = '-' :: (printNat m.natAbs ++ r) by simp]
    rw [parseInt,
      if_pos (show ('-' :: (printNat m.natAbs ++ r)).head? = some '-' from rfl)]
    simp only [List.tail_cons]
    rw [parseNat_print m.natAbs r hr]
    simp only [Option.map_some']
    congr 1
    congr 1
    omega
  · rw [printInt, if_neg hm]
    obtain ⟨c, cs, hcons⟩ := List.exists_cons_of_ne_nil
      (show printNat m.natAbs ≠ [] by simp [printNat, natDigitsBE_ne_nil])
    have hcd : isDig c = true := by
      have : c ∈ printNat m.natAbs := by rw [hcons]; exact List.mem_cons_self _ _
      obtain ⟨d, hd, rfl⟩ := List.mem_map.1 this
      exact isDig_digitChar (natDigitsBE_lt_10 _ d hd)
    rw [parseInt, if_neg (by
      rw [List.nil_append, hcons]
      simp only [List.cons_append, List.head?_cons, Option.some.injEq]
      intro hcm
      rw [hcm] at hcd
      exact absurd hcd (by decide))]
    rw [List.nil_append, parseNat_print m.natAbs r hr]
    simp only [Option.map_some']
    congr 1
    congr 1
    omega

/-- Reading back an unsigned decimal built from explicit integer and
fraction digit strings. -/
theorem parseDecAux_core (ip fp : List ℕ) (r : List Char)
    (hip : ip ≠ []) (hfp : fp ≠ [])
    (hipd : ∀ d ∈ ip, d < 10) (hfpd : ∀ d ∈ fp, d < 10)
    (hr : headFail isDig r) :
    parseDecAux (ip.map digitChar ++ ('.' :: (fp.map digitChar ++ r))) =
      some ({ m := (digitsVal (ip ++ fp) : ℤ), k := fp.length - 1 }, r) := by
  have hipall : ∀ c ∈ ip.map digitChar, isDig c = true := by
    intro c hc
    obtain ⟨d, hd, rfl⟩ := List.mem_map.1 hc
    exact isDig_digitChar (hipd d hd)
  have hfpall : ∀ c ∈ fp.map digitChar, isDig c = true := by
    intro c hc
    obtain ⟨d, hd, rfl⟩ := List.mem_map.1 hc
    exact isDig_digitChar (hfpd d hd)
  have hdot : headFail isDig ('.' :: (fp.map digitChar ++ r)) := by
    show isDig '.' = false
    decide
  simp only [parseDecAux]
  rw [takeWhile_append_all _ _ hipall]
  rw [takeWhile_stop _ hdot, List.append_nil]
  rw [dropWhile_append_all _ _ hipall, dropWhile_stop _ hdot]
  rw [if_neg (by simp [hip])]
  simp only [List.cons_append]
  rw [takeWhile_append_all _ _ hfpall, takeWhile_stop r hr, List.append_nil,
    dropWhile_append_all _ _ hfpall, dropWhile_stop r hr]
  rw [if_neg (by simp [hfp])]
  rw [show ip.map digitChar ++ fp.map digitChar = (ip ++ fp).map digitChar by
    simp [List.map_append]]
  rw [charsVal_map_digitChar _ (by
    intro d hd
    rcases List.mem_append.1 hd with h | h
    · exact hipd d h
    · exact hfpd d h)]
  simp

/-- Shape of a printed decimal: a sign, a nonempty digit string for the
integer part, a point, and a nonempty digit string of exactly `k + 1`
fraction digits, jointly evaluating to the mantissa's absolute value. -/
theorem printDecimal_shape (d : Decimal) :
    ∃ ip fp : List ℕ, ip ≠ [] ∧ fp ≠ [] ∧ (∀ x ∈ ip, x < 10) ∧
      (∀ x ∈ fp, x < 10) ∧ digitsVal (ip ++ fp) = d.m.natAbs ∧
      fp.length = d.k + 1 ∧
      printDecimal d = (if d.m < 0 then ['-'] else []) ++
        (ip.map digitChar ++ ('.' :: fp.map digitChar)) := by
  obtain ⟨m, k⟩ := d
  simp only
  set ds := natDigitsBE m.natAbs with hds
  set padded := List.replicate (k + 1 + 1 - ds.length) 0 ++ ds with hpadded
  have hplen : k + 1 + 1 ≤ padded.length := by
    rw [hpadded]
    simp only [List.length_append, List.length_replicate]
    omega
  have hdig : ∀ x ∈ padded, x < 10 := by
    intro x hx
    rcases List.mem_append.1 hx with h | h
    · simp only [List.eq_of_mem_replicate h]
      omega
    · exact natDigitsBE_lt_10 _ x h
  refine ⟨padded.take (padded.length - (k + 1)), padded.drop (padded.length - (k + 1)),
    ?_, ?_, ?_, ?_, ?_, ?_, ?_⟩
  · apply List.ne_nil_of_length_pos
    rw [List.length_take]
    omega
  · apply List.ne_nil_of_length_pos
    rw [List.length_drop]
    omega
  · exact fun x hx => hdig x (List.take_subset _ _ hx)
  · exact fun x hx => hdig x (List.drop_subset _ _ hx)
  · rw [List.take_append_drop, hpadded, digitsVal_replicate_zero, hds,
      digitsVal_natDigitsBE]
  · rw [List.length_drop]
    omega
  · simp only [printDecimal, ← hds, ← hpadded, List.append_assoc, List.cons_append,
      List.nil_append]

/-- Reading back a printed decimal. -/
theorem parseDecimal_print (d : Decimal) (r : List Char) (hr : headFail isDig r) :
    parseDecimal (printDecimal d ++ r) = some (d, r) := by
  obtain ⟨m, k⟩ := d
  obtain ⟨ip, fp, hipne, hfpne, hipd, hfpd, hval, hfplen, hshape⟩ :=
    printDecimal_shape { m := m, k := k }
  simp only at hval hfplen
  rw [hshape]
  by_cases hm : m < 0
  · rw [if_pos hm]
    rw [show (['-'] ++ (ip.map digitChar ++ ('.' :: fp.map digitChar))) ++ r
        = '-' :: (ip.map digitChar ++ ('.' :: (fp.map digitChar ++ r))) by simp]
    rw [parseDecimal,
      if_pos (show ('-' :: (ip.map digitChar ++ ('.' :: (fp.map digitChar ++ r)))).head?
        = some '-' from rfl)]
    simp only [List.tail_cons]
    rw [parseDecAux_core ip fp r hipne hfpne hipd hfpd hr]
    simp only [Option.map_some', Option.some.injEq, Prod.mk.injEq]
    refine ⟨?_, trivial⟩
    rw [hval, hfplen]
    simp only [Decimal.mk.injEq]
    constructor
    · omega
    · omega
  · rw [if_neg hm, List.nil_append]
    obtain ⟨c, cs, hcons⟩ := List.exists_cons_of_ne_nil
      (show ip.map digitChar ≠ [] by simp [hipne])
    have hcd : isDig c = true := by
      have hcm : c ∈ ip.map digitChar := by rw [hcons]; exact List.mem_cons_self _ _
      obtain ⟨x, hx, rfl⟩ := List.mem_map.1 hcm
      exact isDig_digitChar (hipd x hx)
    rw [show (ip.map digitChar ++ ('.' :: fp.map digitChar)) ++ r
        = ip.map digitChar ++ ('.' :: (fp.map digitChar ++ r)) by simp]
    rw [parseDecimal, if_neg (by
      rw [hcons]
      simp only [List.cons_append, List.head?_cons, Option.some.injEq]
      intro hcm
      rw [hcm] at hcd
      exact absurd hcd (by decide))]
    rw [parseDecAux_core ip fp r hipne hfpne hipd hfpd hr]
    simp only [Option.some.injEq, Prod.mk.injEq]
    refine ⟨?_, trivial⟩
    rw [hval, hfplen]
    simp only [Decimal.mk.injEq]
    constructor
    · omega
    · omega

/-- Reading back a printed 3-element array, given that the element parser
inverts the element printer. -/
theorem parseTriple_print {α : Type} (pe : List Char → Option (α × List Char))
    (pr : α → List Char)
    (hinv : ∀ (v : α) (r : List Char), headFail isDig r → pe (pr v ++ r) = some (v, r))
    (t : α × α × α) (r : List Char) :
    parseTriple pe (printTriple pr t ++ r) = some (t, r) := by
  obtain ⟨a, b, c⟩ := t
  have hsep : ∀ (x : List Char), headFail isDig (',' :: (' ' :: x)) := by
    intro x
    show isDig ',' = false
    decide
  have hbr : ∀ (x : List Char), headFail isDig (']' :: x) := by
    intro x
    show isDig ']' = false
    decide
  have hnorm : printTriple pr (a, b, c) ++ r =
      '[' :: (pr a ++ (',' :: (' ' :: (pr b ++
        (',' :: (' ' :: (pr c ++ (']' :: r)))))))) := by
    simp [printTriple]
  rw [hnorm]
  simp only [parseTriple]
  rw [hinv a _ (hsep _)]
  simp only []
  rw [hinv b _ (hsep _)]
  simp only []
  rw [hinv c _ (hbr _)]
  rfl

/-- A joined nonempty rendering is at least one character per element. -/
theorem printJoin_length_ge {α : Type} (pr : α → List Char)
    (hne : ∀ v, pr v ≠ []) (l : List α) :
    l.length ≤ (printJoin pr l).length := by
  induction l with
  | nil => simp [printJoin]
  | cons a t ih =>
    cases t with
    | nil =>
      simpa [printJoin] using List.length_pos.2 (hne a)
    | cons b t' =>
      simp only [printJoin, List.length_append, List.length_cons] at ih ⊢
      have h1 := List.length_pos.2 (hne a)
      omega

/-- Reading back a printed comma-joined element list up to the closing
bracket. -/
theorem parseListAux_print {α : Type} (pe : List Char → Option (α × List Char))
    (pr : α → List Char)
    (helem : ∀ (v : α) (r : List Char), pe (pr v ++ r) = some (v, r)) :
    ∀ (l : List α) (fuel : ℕ) (r : List Char), l ≠ [] → l.length ≤ fuel →
      parseListAux pe fuel (printJoin pr l ++ (']' :: r)) = some (l, ']' :: r) := by
  intro l
  induction l with
  | nil => intro fuel r h _; exact absurd rfl h
  | cons a t ih =>
    intro fuel r _ hlen
    cases fuel with
    | zero => exact absurd hlen (by simp)
    | succ f =>
      cases t with
      | nil =>
        simp only [printJoin]
        simp only [parseListAux]
        rw [helem a (']' :: r)]
        rfl
      | cons b t' =>
        have hnorm : printJoin pr (a :: b :: t') ++ (']' :: r)
            = pr a ++ (',' :: (' ' :: (printJoin pr (b :: t') ++ (']' :: r)))) := by
          simp [printJoin]
        rw [hnorm]
        simp only [parseListAux]
        rw [helem a _]
        have hrec := ih f r (by simp) (by simpa using hlen)
        show (parseListAux pe f (printJoin pr (b :: t') ++ (']' :: r))).map
          (fun pr' => (a :: pr'.1, pr'.2)) = some (a :: b :: t', ']' :: r)
        rw [hrec]
        rfl

/-- Reading back a printed array whose elements start with an opening
bracket (the points and colors arrays of triples). -/
theorem parseListOf_print {α : Type} (pe : List Char → Option (α × List Char))
    (pr : α → List Char)
    (helem : ∀ (v : α) (r : List Char), pe (pr v ++ r) = some (v, r))
    (hhead : ∀ v : α, ∃ cs, pr v = '[' :: cs)
    (l : List α) (r : List Char) :
    parseListOf pe (printListOf pr l ++ r) = some (l, r) := by
  have hne : ∀ v : α, pr v ≠ [] := by
    intro v
    obtain ⟨cs, hcs⟩ := hhead v
    simp [hcs]
  cases l with
  | nil => simp [printListOf, printJoin, parseListOf]
  | cons a t =>
    obtain ⟨cs0, hcs0⟩ := hhead a
    have hnorm : printListOf pr (a :: t) ++ r =
        '[' :: (printJoin pr (a :: t) ++ (']' :: r)) := by
      simp [printListOf]
    rw [hnorm]
    have hX : ∃ Y, printJoin pr (a :: t) ++ (']' :: r) = '[' :: Y := by
      cases t with
      | nil => exact ⟨cs0 ++ (']' :: r), by simp [printJoin, hcs0]⟩
      | cons b t' => exact ⟨cs0 ++ (',' :: (' ' :: (printJoin pr (b :: t')))) ++ (']' :: r),
          by simp [printJoin, hcs0]⟩
    obtain ⟨Y, hY⟩ := hX
    have hfuel : (a :: t).length ≤ (printJoin pr (a :: t) ++ (']' :: r)).length := by
      have hpj := printJoin_length_ge pr hne (a :: t)
      simp only [List.length_append, List.length_cons] at hpj ⊢
      omega
    rw [hY]
    show (match parseListAux pe (('[' :: Y : List Char)).length ('[' :: Y) with
      | some (vs, ']' :: rest) => some (vs, rest)
      | _ => none) = some (a :: t, r)
    rw [← hY]
    rw [parseListAux_print pe pr helem (a :: t) _ r (by simp) hfuel]
    rfl

/-- Consuming a literal that is the whole remaining input. -/
theorem parseLit_self (p : List Char) : parseLit p p = some [] := by
  have hres := parseLit_append p []
  simpa using hres

/-- Deserializing the serialized snapshot text recovers the snapshot:
`json.loads` inverts `json.dumps` on the point-cloud payload. -/
theorem parseWire_print (w : WireSnapshot) : parseWire (printWire w) = some w := by
  have helemD : ∀ (v : Decimal × Decimal × Decimal) (r : List Char),
      parseTriple parseDecimal (printTriple printDecimal v ++ r) = some (v, r) :=
    fun v r => parseTriple_print parseDecimal printDecimal
      (fun v' r' hr' => parseDecimal_print v' r' hr') v r
  have helemI : ∀ (v : ℤ × ℤ × ℤ) (r : List Char),
      parseTriple parseInt (printTriple printInt v ++ r) = some (v, r) :=
    fun v r => parseTriple_print parseInt printInt
      (fun v' r' hr' => parseInt_print v' r' hr') v r
  have hheadD : ∀ v : Decimal × Decimal × Decimal,
      ∃ cs, printTriple printDecimal v = '[' :: cs := fun v => ⟨_, rfl⟩
  have hheadI : ∀ v : ℤ × ℤ × ℤ,
      ∃ cs, printTriple printInt v = '[' :: cs := fun v => ⟨_, rfl⟩
  have hclose : headFail isDig litClose := by
    show isDig '\x7d' = false
    decide
  have hnorm : printWire w = litOpen ++
      (printListOf (printTriple printDecimal) w.points ++
        (litColors ++ (printListOf (printTriple printInt) w.colors ++
          (litTs ++ (printDecimal w.timestamp ++ litClose))))) := by
    simp [printWire, List.append_assoc]
  rw [hnorm]
  simp only [parseWire]
  rw [parseLit_append litOpen _]
  simp only []
  rw [parseListOf_print (parseTriple parseDecimal) (printTriple printDecimal)
    helemD hheadD w.points _]
  simp only []
  rw [parseLit_append litColors _]
  simp only []
  rw [parseListOf_print (parseTriple parseInt) (printTriple printInt)
    helemI hheadI w.colors _]
  simp only []
  rw [parseLit_append litTs _]
  simp only []
  rw [parseDecimal_print w.timestamp litClose hclose]
  simp only []
  rw [parseLit_self litClose]

/-- C3: decoding inverts encoding for every wire snapshot, including the
empty one: gzip-decompressing and JSON-parsing the compressed JSON
serialization of a snapshot recovers exactly its points, colors and
timestamp. -/
theorem C3_decode_encode_roundtrip (w : WireSnapshot) :
    decodeSnapshot (encodeSnapshot w) = some w := by
  rw [decodeSnapshot, encodeSnapshot, rle_roundtrip, bytesChars_strBytes,
    parseWire_print]

end Undercity
